import Mathlib

/-!
Verification of the measurement-aggregation and statistics-batching engine
of ReBenchDB (HumphreyHCB/HBReBenchDB).

The definitions below are a shallow embedding of the relevant TypeScript
source:

* `src/src/backend/timeline/timeline-calc.ts` — the `TimelineWorker` and
  `BatchingTimelineUpdater` classes.  Their mutable object state becomes
  explicit state records; the asynchronous completion promise of a wave is
  modelled by the `hasResolver` / `resolvedWith` fields; the database
  collaborator `recordTimeline` becomes an explicit success predicate, and
  the calls made to it are logged.  JavaScript `Map` objects (insertion
  ordered, unique keys) become association lists with `mapGet` / `mapSet`.

* `collateMeasurements` / `sortResultsAlphabetically` /
  `findOrConstructProcessedResult` / `findOrConstructMeasurements` /
  `findMeasurements` from `stats-data-prep.ts` (present in
  `src/tests/views/compare-view.test.ts`).  The in-place mutation of the
  nested maps becomes functional update; JavaScript sparse arrays become
  lists of `Option`s (a hole is `none`).

Numeric measurement values are only moved around (never computed with) by
this code, so JavaScript numbers carrying measurement values are modelled
as `Int`.  Database identifiers are modelled as `Nat`.
-/

namespace ReBenchDB

/-! ## JavaScript `Map` semantics

A JS `Map` iterates in insertion order; `set` on an existing key keeps the
key's position and replaces the value, `set` on a fresh key appends.  The
same semantics covers plain-object records used for the criteria. -/

/-- `m.get(k)` on a JS `Map` represented as an insertion-ordered
association list. -/
def mapGet {β : Type} (m : List (String × β)) (k : String) : Option β :=
  match m with
  | [] => none
  | (k', v) :: rest => if k' = k then some v else mapGet rest k

/-- `m.set(k, v)` on a JS `Map`: replace in place if the key is present,
append otherwise. -/
def mapSet {β : Type} (m : List (String × β)) (k : String) (v : β) :
    List (String × β) :=
  match m with
  | [] => [(k, v)]
  | (k', v') :: rest =>
    if k' = k then (k, v) :: rest else (k', v') :: mapSet rest k v

/-! ## `timeline-calc.ts`: data shapes -/

/-- Modelled from the spec: `shared/stats.js` is not under `src/`.
`SummaryStatistics` carries a median, a sample count and bootstrap
confidence bounds; the batching engine only passes these values through
to `recordTimeline`, it never inspects them. -/
structure SummaryStatistics where
  median : Int
  numberOfSamples : Nat
  bciLow : Int
  bciUp : Int
deriving DecidableEq, Repr

/-- `interface ComputeJob` from `timeline-calc.ts`. -/
structure ComputeJob where
  runId : Nat
  trialId : Nat
  criterion : Nat
  dataForCriterion : List Int
deriving DecidableEq, Repr

/-- `interface ComputeRequest` from `timeline-calc.ts`. -/
structure ComputeRequest where
  jobs : List ComputeJob
  requestStart : Nat
deriving DecidableEq, Repr

/-- `interface ComputeResult` from `timeline-calc.ts`. -/
structure ComputeResult where
  runId : Nat
  trialId : Nat
  criterion : Nat
  stats : SummaryStatistics
deriving DecidableEq, Repr

/-- `interface ComputeResults` from `timeline-calc.ts`. -/
structure ComputeResults where
  results : List ComputeResult
  requestStart : Nat
deriving DecidableEq, Repr

/-- One call to the Database collaborator's
`recordTimeline(runId, trialId, criterion, stats)`. -/
structure RecordTimelineCall where
  runId : Nat
  trialId : Nat
  criterion : Nat
  stats : SummaryStatistics
deriving DecidableEq, Repr

/-- The `recordTimeline` arguments extracted from one `ComputeResult`,
exactly as `receiveResults` passes them. -/
def toCall (res : ComputeResult) : RecordTimelineCall :=
  ⟨res.runId, res.trialId, res.criterion, res.stats⟩

/-- The behaviour of the external database: whether a given
`recordTimeline` call succeeds (`true`) or throws (`false`). -/
def DbBehavior : Type := RecordTimelineCall → Bool

/-! ## `BatchingTimelineUpdater` state -/

/-- The mutable fields of `BatchingTimelineUpdater`.
`requests` is the pending-job `Map` keyed by the composite string key;
`hasResolver` models `resolveJobsPromiseWithNumberOfJobs !== null`;
`resolvedWith` records the value the current wave's completion promise was
resolved with (`none` while pending or before any wave). -/
structure UpdaterState where
  requests : List (String × ComputeJob)
  activeRequests : Int
  requestsAtStart : Int
  hasResolver : Bool
  resolvedWith : Option Int
deriving DecidableEq, Repr

/-- The state set up by the `BatchingTimelineUpdater` constructor. -/
def initialUpdaterState : UpdaterState :=
  { requests := []
    activeRequests := 0
    requestsAtStart := 0
    hasResolver := false
    resolvedWith := none }

/-- The composite key built in `addValues`:
`` `${trialId}-${runId}-${criterionId}` ``. -/
def mkKey (trialId runId criterionId : Nat) : String :=
  toString trialId ++ "-" ++ toString runId ++ "-" ++ toString criterionId

/-- `BatchingTimelineUpdater.addValues(runId, trialId, criterionId, values)`.
A missing measurement (`null`) is `none`.  If the key is absent and all
values are missing, nothing happens; if it is absent and some value is
present, a fresh job holding the non-null values is inserted; if it is
present, the non-null values are pushed onto the existing job's
`dataForCriterion`. -/
def addValues (st : UpdaterState) (runId trialId criterionId : Nat)
    (values : List (Option Int)) : UpdaterState :=
  let id := mkKey trialId runId criterionId
  match mapGet st.requests id with
  | none =>
    let withoutMissing := values.filterMap (fun v => v)
    if withoutMissing = [] then st
    else
      let req : ComputeJob :=
        { runId := runId, trialId := trialId, criterion := criterionId,
          dataForCriterion := withoutMissing }
      { st with requests := mapSet st.requests id req }
  | some job =>
    let job' : ComputeJob :=
      { job with dataForCriterion :=
          job.dataForCriterion ++ values.filterMap (fun v => v) }
    { st with requests := mapSet st.requests id job' }

/-- What one call of `submitUpdateJobs` / `processUpdateJobs` does and
returns: the successor state, the request posted to the statistics worker
(if any), and `some v` when the returned promise is already resolved with
`v` (the empty-table case).  When `immediateResult = none` the returned
handle is the wave promise tracked in the state. -/
structure WaveOutcome where
  state : UpdaterState
  sent : Option ComputeRequest
  immediateResult : Option Int
deriving DecidableEq, Repr

/-- `BatchingTimelineUpdater.consumeUpdateJobsForBenchmarking()`:
take all pending jobs in insertion order and clear the table. -/
def consumeUpdateJobsForBenchmarking (st : UpdaterState) :
    List ComputeJob × UpdaterState :=
  (st.requests.map Prod.snd, { st with requests := [] })

/-- `BatchingTimelineUpdater.processUpdateJobs(jobs, requestStart)`.
With no jobs it immediately resolves to `0` without worker interaction;
otherwise it adds the job count to `activeRequests`, snapshots it into
`requestsAtStart`, posts one request holding all jobs, and installs a
fresh pending promise. -/
def processUpdateJobs (st : UpdaterState) (jobs : List ComputeJob)
    (requestStart : Nat) : WaveOutcome :=
  if jobs = [] then
    { state := st, sent := none, immediateResult := some 0 }
  else
    let active := st.activeRequests + jobs.length
    { state :=
        { st with
            activeRequests := active
            requestsAtStart := active
            hasResolver := true
            resolvedWith := none }
      sent := some { jobs := jobs, requestStart := requestStart }
      immediateResult := none }

/-- `BatchingTimelineUpdater.submitUpdateJobs()`.  The `requestStart`
timestamp produced by the external `startRequest()` of the performance
tracker is passed in as a parameter. -/
def submitUpdateJobs (st : UpdaterState) (requestStart : Nat) : WaveOutcome :=
  let (jobs, st') := consumeUpdateJobsForBenchmarking st
  processUpdateJobs st' jobs requestStart

/-- The persistence loop at the start of `receiveResults`: one
`recordTimeline` call per result, in arrival order; a failing call aborts
the loop (the exception propagates).  Returns the calls actually made and
whether the loop completed. -/
def recordLoop (db : DbBehavior) : List ComputeResult →
    List RecordTimelineCall × Bool
  | [] => ([], true)
  | res :: rest =>
    if db (toCall res) then
      let x := recordLoop db rest
      (toCall res :: x.1, x.2)
    else
      ([toCall res], false)

/-- `BatchingTimelineUpdater.receiveResults(r)`.  Returns the
`recordTimeline` calls made, the successor state, and whether the method
ran to completion (`false` = a persistence failure threw before the
counter was decremented, leaving every field untouched). -/
def receiveResults (db : DbBehavior) (st : UpdaterState)
    (r : ComputeResults) : List RecordTimelineCall × UpdaterState × Bool :=
  let x := recordLoop db r.results
  if x.2 then
    let active := st.activeRequests - r.results.length
    if active = 0 ∧ st.hasResolver ∧ r.requestStart ≠ 0 then
      (x.1,
       { st with
           activeRequests := active
           hasResolver := false
           resolvedWith := some st.requestsAtStart },
       true)
    else
      (x.1, { st with activeRequests := active }, true)
  else
    (x.1, st, false)

/-- The state reached after `receiveResults` has been called for a list of
result batches in order (all persistence effects aside). -/
def runReceives (db : DbBehavior) (st : UpdaterState)
    (batches : List ComputeResults) : UpdaterState :=
  batches.foldl (fun s b => (receiveResults db s b).2.1) st

/-- Total number of results across a list of batches. -/
def sumSizes (batches : List ComputeResults) : Nat :=
  (batches.map (fun b => b.results.length)).sum

/-- One operation on a `BatchingTimelineUpdater`, for stating invariants
over arbitrary interleavings of `addValues` and `submitUpdateJobs`. -/
inductive UpdaterOp where
  | add (runId trialId criterionId : Nat) (values : List (Option Int))
  | submit (requestStart : Nat)
deriving DecidableEq, Repr

/-- Apply one operation to the updater state. -/
def applyOp (st : UpdaterState) : UpdaterOp → UpdaterState
  | .add r t c vs => addValues st r t c vs
  | .submit rs => (submitUpdateJobs st rs).state

/-- Run a sequence of operations from the constructor state. -/
def runOps (ops : List UpdaterOp) : UpdaterState :=
  ops.foldl applyOp initialUpdaterState

/-! ## `TimelineWorker` -/

/-- A message received from the statistics worker: either a result batch
or the literal `'exiting'` acknowledgement. -/
inductive WorkerMessage where
  | results (r : ComputeResults)
  | exiting
deriving DecidableEq, Repr

/-- The mutable fields of `TimelineWorker` relevant to shutdown.
`shutdownPromise` holds the identity of the shutdown promise once created;
`freshId` supplies promise identities; `postedExit` records that the
`'exit'` message was posted; `terminateCalled` records that
`worker.terminate()` was invoked (releasing the worker's resources);
`shutdownResolved` records that the shutdown promise was resolved. -/
structure TimelineWorkerState where
  shutdownPromise : Option Nat
  shutdownResolveSet : Bool
  freshId : Nat
  postedExit : Bool
  terminateCalled : Bool
  shutdownResolved : Bool
deriving DecidableEq, Repr

/-- The state set up by the `TimelineWorker` constructor. -/
def initialWorkerState : TimelineWorkerState :=
  { shutdownPromise := none
    shutdownResolveSet := false
    freshId := 0
    postedExit := false
    terminateCalled := false
    shutdownResolved := false }

/-- `TimelineWorker.shutdown()`: if a shutdown promise already exists it
is returned unchanged; otherwise a fresh promise is created, its resolver
stored, and `'exit'` posted to the worker.  Returns the successor state
and the identity of the returned promise. -/
def shutdown (st : TimelineWorkerState) : TimelineWorkerState × Nat :=
  match st.shutdownPromise with
  | some p => (st, p)
  | none =>
    let p := st.freshId
    ({ st with
         shutdownPromise := some p
         shutdownResolveSet := true
         freshId := p + 1
         postedExit := true },
     p)

/-- `TimelineWorker.processResponse(message)` restricted to the fields
modelled here: on `'exiting'` it calls `worker.terminate()` and then
resolves the shutdown promise if its resolver was installed; result
batches are forwarded to the updater and leave this state alone. -/
def processResponse (st : TimelineWorkerState) :
    WorkerMessage → TimelineWorkerState
  | .exiting =>
    let st1 := { st with terminateCalled := true }
    if st1.shutdownResolveSet then { st1 with shutdownResolved := true }
    else st1
  | .results _ => st

/-- An externally visible event on a `TimelineWorker`. -/
inductive WorkerEvent where
  | shutdownCall
  | response (msg : WorkerMessage)
deriving DecidableEq, Repr

/-- Apply one event to the worker state. -/
def applyWorkerEvent (st : TimelineWorkerState) :
    WorkerEvent → TimelineWorkerState
  | .shutdownCall => (shutdown st).1
  | .response msg => processResponse st msg

/-- Run a sequence of events from a given worker state. -/
def runWorkerFrom (st : TimelineWorkerState) (evs : List WorkerEvent) :
    TimelineWorkerState :=
  evs.foldl applyWorkerEvent st

/-- Run a sequence of events from the constructor state. -/
def runWorker (evs : List WorkerEvent) : TimelineWorkerState :=
  runWorkerFrom initialWorkerState evs

/-! ## `stats-data-prep.ts`: data shapes

The row and result types come from `db/types.js`, which is not under
`src/`; their field lists are exactly those read or written by the code
embedded here.  Scalar run-settings fields (`varvalue`, `cores`,
`inputsize`, `extraargs`, `warmup`) are opaque payload for this code and
are modelled as `Option String`. -/

/-- One flat measurement row (`MeasurementData`). -/
structure MeasurementData where
  exe : String
  suite : String
  bench : String
  criterion : String
  unit : String
  cmdline : String
  varvalue : Option String
  cores : Option String
  inputsize : Option String
  extraargs : Option String
  warmup : Option String
  envid : Nat
  commitid : String
  runid : Nat
  trialid : Nat
  expid : Nat
  invocation : Nat
  iteration : Nat
  value : Int
deriving DecidableEq, Repr

/-- `CriterionData`: one record per (name, unit) pair. -/
structure CriterionData where
  name : String
  unit : String
deriving DecidableEq, Repr

/-- Modelled from the spec: `simplifyCmdline` from `shared/util.js` is not
under `src/`.  The spec only says the command line is
"simplified/canonicalized once"; none of the claims depend on the
canonical form, so it is modelled as a fixed canonicalization (the
identity). -/
def simplifyCmdline (cmdline : String) : String := cmdline

/-- `RunSettings`: one record per distinct command line. -/
structure RunSettings where
  cmdline : String
  varValue : Option String
  cores : Option String
  inputSize : Option String
  extraArgs : Option String
  warmup : Option String
  simplifiedCmdline : String
deriving DecidableEq, Repr

/-- A measurement series (`Measurements`).  The two-dimensional `values`
grid is a JavaScript sparse array of arrays: a hole is `none`. -/
structure Measurements where
  criterion : CriterionData
  values : List (Option (List (Option Int)))
  envId : Nat
  commitId : String
  runSettings : RunSettings
  runId : Nat
  trialId : Nat
  expId : Nat
deriving DecidableEq, Repr

/-- `ProcessedResult`: one per (exe, suite, bench). -/
structure ProcessedResult where
  exe : String
  suite : String
  bench : String
  measurements : List Measurements
deriving DecidableEq, Repr

/-- `ResultsByBenchmark`: the per-suite record holding the benchmark map
and the criteria record (a plain object, insertion ordered). -/
structure ResultsByBenchmark where
  benchmarks : List (String × ProcessedResult)
  criteria : List (String × CriterionData)
deriving DecidableEq, Repr

/-- `ResultsByExeSuiteBenchmark`: exe → suite → `ResultsByBenchmark`. -/
abbrev ResultsByExeSuiteBenchmark : Type :=
  List (String × List (String × ResultsByBenchmark))

/-- The whole mutable state of one `collateMeasurements` run:
the nested result map plus the shared `runSettings` and `criteria`
maps. -/
structure CollateState where
  byExeSuiteBench : ResultsByExeSuiteBenchmark
  runSettings : List (String × RunSettings)
  criteria : List (String × CriterionData)

/-- The empty state the run starts from. -/
def initialCollateState : CollateState :=
  { byExeSuiteBench := [], runSettings := [], criteria := [] }

/-! ## `stats-data-prep.ts`: the collation pass -/

/-- The match predicate of `findMeasurements`: a series matches a row when
environment, commit, run, trial and criterion name agree. -/
def measMatches (m : Measurements) (row : MeasurementData) : Bool :=
  m.envId = row.envid && m.commitId = row.commitid &&
  m.runId = row.runid && m.trialId = row.trialid &&
  m.criterion.name = row.criterion

/-- Extend a list with `x`s up to length `n` (JavaScript array extension
on out-of-range index assignment; the padding is holes). -/
def padTo {α : Type} (l : List α) (n : Nat) (x : α) : List α :=
  l ++ List.replicate (n - l.length) x

/-- The cell write at the end of the per-row loop:
`if (!m.values[invocation-1]) m.values[invocation-1] = [];
 m.values[invocation-1][iteration-1] = value`.
Assumes the one-based `invocation`/`iteration` of real rows. -/
def setCell (grid : List (Option (List (Option Int))))
    (invocation iteration : Nat) (v : Int) :
    List (Option (List (Option Int))) :=
  let i := invocation - 1
  let j := iteration - 1
  let outer := padTo grid (i + 1) none
  let inner := (outer.getD i none).getD []
  let inner' := (padTo inner (j + 1) none).set j (some v)
  outer.set i (some inner')

/-- A fresh series as built by `findOrConstructMeasurements`, with the
row's cell already written (the write happens to every row's series right
after the find-or-construct). -/
def newSeries (row : MeasurementData) (criterion : CriterionData)
    (runSetting : RunSettings) : Measurements :=
  { criterion := criterion
    values := setCell [] row.invocation row.iteration row.value
    envId := row.envid
    commitId := row.commitid
    runSettings := runSetting
    runId := row.runid
    trialId := row.trialid
    expId := row.expid }

/-- `findMeasurements` + `findOrConstructMeasurements` + the cell write,
on the series list of one `ProcessedResult`: the first series matching the
row receives the cell write; if none matches, a fresh series is appended.
The boolean reports whether a series was constructed (in which case the
caller also records the criterion). -/
def updateMeas (row : MeasurementData) (criterion : CriterionData)
    (runSetting : RunSettings) :
    List Measurements → List Measurements × Bool
  | [] => ([newSeries row criterion runSetting], true)
  | m :: rest =>
    if measMatches m row then
      ({ m with values := setCell m.values row.invocation row.iteration
                  row.value } :: rest,
       false)
    else
      let x := updateMeas row criterion runSetting rest
      (m :: x.1, x.2)

/-- `findOrConstructProcessedResult` plus the series update, on one
suite's `ResultsByBenchmark`.  When a series is constructed, the criterion
is recorded in the suite's criteria record
(`forSuiteByBench.criteria[criterion.name] = criterion`). -/
def updateSuite (rb : ResultsByBenchmark) (row : MeasurementData)
    (criterion : CriterionData) (runSetting : RunSettings) :
    ResultsByBenchmark :=
  let pr :=
    (mapGet rb.benchmarks row.bench).getD
      { exe := row.exe, suite := row.suite, bench := row.bench,
        measurements := [] }
  let x := updateMeas row criterion runSetting pr.measurements
  let pr' : ProcessedResult :=
    { exe := pr.exe, suite := pr.suite, bench := pr.bench,
      measurements := x.1 }
  { benchmarks := mapSet rb.benchmarks row.bench pr'
    criteria :=
      if x.2 then mapSet rb.criteria criterion.name criterion
      else rb.criteria }

/-- The criteria-map lookup at the top of the per-row loop: get or create
the shared `CriterionData` keyed by `` name|unit ``. -/
def lookupCriterion (criteria : List (String × CriterionData))
    (row : MeasurementData) :
    CriterionData × List (String × CriterionData) :=
  let ckey := row.criterion ++ "|" ++ row.unit
  match mapGet criteria ckey with
  | some c => (c, criteria)
  | none =>
    let c : CriterionData := { name := row.criterion, unit := row.unit }
    (c, mapSet criteria ckey c)

/-- The run-settings lookup of the per-row loop: get or create the shared
`RunSettings` keyed by the command line. -/
def lookupRunSettings (runSettings : List (String × RunSettings))
    (row : MeasurementData) :
    RunSettings × List (String × RunSettings) :=
  match mapGet runSettings row.cmdline with
  | some r => (r, runSettings)
  | none =>
    let r : RunSettings :=
      { cmdline := row.cmdline
        varValue := row.varvalue
        cores := row.cores
        inputSize := row.inputsize
        extraArgs := row.extraargs
        warmup := row.warmup
        simplifiedCmdline := simplifyCmdline row.cmdline }
    (r, mapSet runSettings row.cmdline r)

/-- The body of the per-row loop of `collateMeasurements`: get or create
the shared `CriterionData` and `RunSettings`, then update the row's exe →
suite → benchmark entry. -/
def processRow (st : CollateState) (row : MeasurementData) : CollateState :=
  let cpair := lookupCriterion st.criteria row
  let rpair := lookupRunSettings st.runSettings row
  let suites := (mapGet st.byExeSuiteBench row.exe).getD []
  let rb := (mapGet suites row.suite).getD { benchmarks := [], criteria := [] }
  let rb' := updateSuite rb row cpair.1 rpair.1
  { byExeSuiteBench :=
      mapSet st.byExeSuiteBench row.exe (mapSet suites row.suite rb')
    runSettings := rpair.2
    criteria := cpair.2 }

/-! ## The numeric-aware comparator

`sortResultsAlphabetically` sorts with
`a[0].localeCompare(b[0], undefined, \x7b numeric: true \x7d)`.
`localeCompare` is a JavaScript builtin; its numeric collation is
modelled here: a string is tokenized into digit runs and single
characters, a digit run compares numerically, and (as a fixed convention
of the model) any digit run compares after any single character.  Only
the comparator's totality, transitivity and its numeric awareness
("bench10" after "bench2") matter to the claims. -/

/-- Tokenizer for the collation key: the accumulator carries the numeric
value of the digit run currently being read, if any.  Each character
becomes its code point; each maximal digit run becomes `1114112 + value`
(so digit runs sort after any character and among themselves by numeric
value). -/
def natKeyAux : List Char → Option Nat → List Nat
  | [], some n => [1114112 + n]
  | [], none => []
  | c :: rest, acc =>
    if c.isDigit then
      natKeyAux rest (some ((acc.getD 0) * 10 + (c.toNat - 48)))
    else
      match acc with
      | some n => (1114112 + n) :: c.toNat :: natKeyAux rest none
      | none => c.toNat :: natKeyAux rest none

/-- Collation key of a string. -/
def natKey (l : List Char) : List Nat :=
  natKeyAux l none

/-- Boolean lexicographic order on key lists. -/
def lexLe : List Nat → List Nat → Bool
  | [], _ => true
  | _ :: _, [] => false
  | x :: xs, y :: ys =>
    if x < y then true else if y < x then false else lexLe xs ys

/-- The modelled `localeCompare(·, undefined, \x7b numeric: true \x7d) <= 0`
relation used by the sorting pass. -/
def natLe (a b : String) : Bool :=
  lexLe (natKey a.data) (natKey b.data)

/-- Insert into a sorted list, before the first element not strictly
smaller (stable: an element is inserted before a later-in-input tie). -/
def insertLe {α : Type} (le : α → α → Bool) (x : α) : List α → List α
  | [] => [x]
  | y :: ys => if le x y then x :: y :: ys else y :: insertLe le x ys

/-- Stable insertion sort (JavaScript `Array.prototype.sort` is a stable
sort; only stability and the comparator matter to the embedded code). -/
def stableSort {α : Type} (le : α → α → Bool) : List α → List α
  | [] => []
  | x :: xs => insertLe le x (stableSort le xs)

/-- Sort the entries of an association list by key with the numeric-aware
comparator. -/
def sortByKey {β : Type} (m : List (String × β)) : List (String × β) :=
  stableSort (fun a b => natLe a.1 b.1) m

/-- The per-suite part of the sorting pass: sort the benchmark level;
the criteria record is left untouched. -/
def sortSuiteEntry (sp : String × ResultsByBenchmark) :
    String × ResultsByBenchmark :=
  (sp.1, { benchmarks := sortByKey sp.2.benchmarks,
           criteria := sp.2.criteria })

/-- The per-exe part of the sorting pass: sort the suite level and,
inside each suite, the benchmark level. -/
def sortExeEntry (ep : String × List (String × ResultsByBenchmark)) :
    String × List (String × ResultsByBenchmark) :=
  (ep.1, (sortByKey ep.2).map sortSuiteEntry)

/-- `sortResultsAlphabetically`: sort the exe level, each exe's suite
level, and each suite's benchmark level; the criteria records are left
untouched. -/
def sortResultsAlphabetically (r : ResultsByExeSuiteBenchmark) :
    ResultsByExeSuiteBenchmark :=
  (sortByKey r).map sortExeEntry

/-- `collateMeasurements`: the single pass over the rows followed by the
sorting pass. -/
def collateMeasurements (data : List MeasurementData) :
    ResultsByExeSuiteBenchmark :=
  sortResultsAlphabetically
    (data.foldl processRow initialCollateState).byExeSuiteBench

/-! ## Leaf-content observations on the collated hierarchy -/

/-- Full cell coordinates of a measurement value in the hierarchy. -/
structure CellCoord where
  exe : String
  suite : String
  bench : String
  envid : Nat
  commitid : String
  runid : Nat
  trialid : Nat
  criterion : String
  invocation : Nat
  iteration : Nat
deriving DecidableEq, Repr

/-- The cell coordinates a row writes to. -/
def coordOf (row : MeasurementData) : CellCoord :=
  { exe := row.exe
    suite := row.suite
    bench := row.bench
    envid := row.envid
    commitid := row.commitid
    runid := row.runid
    trialid := row.trialid
    criterion := row.criterion
    invocation := row.invocation
    iteration := row.iteration }

/-- Series-identity key: (envId, commitId, runId, trialId, criterion
name), the fields `findMeasurements` compares. -/
def seriesKey (m : Measurements) : Nat × String × Nat × Nat × String :=
  (m.envId, m.commitId, m.runId, m.trialId, m.criterion.name)

/-- The series key of the cell coordinates. -/
def coordSeriesKey (c : CellCoord) : Nat × String × Nat × Nat × String :=
  (c.envid, c.commitid, c.runid, c.trialid, c.criterion)

/-- The series key a row's series carries. -/
def rowSeriesKey (row : MeasurementData) : Nat × String × Nat × Nat × String :=
  (row.envid, row.commitid, row.runid, row.trialid, row.criterion)

/-- The suite map stored for an execution unit, if any. -/
def suitesOf (r : ResultsByExeSuiteBenchmark) (exe : String) :
    Option (List (String × ResultsByBenchmark)) :=
  mapGet r exe

/-- The `ResultsByBenchmark` stored for (exe, suite), if any. -/
def suiteResultOf (r : ResultsByExeSuiteBenchmark) (exe suite : String) :
    Option ResultsByBenchmark :=
  (mapGet r exe).bind (fun suites => mapGet suites suite)

/-- The `ProcessedResult` stored for (exe, suite, bench), if any. -/
def benchResultOf (r : ResultsByExeSuiteBenchmark)
    (exe suite bench : String) : Option ProcessedResult :=
  (suiteResultOf r exe suite).bind (fun rb => mapGet rb.benchmarks bench)

/-- Whether an execution-unit entry exists. -/
def exeExists (r : ResultsByExeSuiteBenchmark) (exe : String) : Bool :=
  (mapGet r exe).isSome

/-- Whether a suite entry exists under an execution unit. -/
def suiteExists (r : ResultsByExeSuiteBenchmark) (exe suite : String) :
    Bool :=
  (suiteResultOf r exe suite).isSome

/-- Whether a benchmark entry exists under (exe, suite). -/
def benchExists (r : ResultsByExeSuiteBenchmark) (exe suite bench : String) :
    Bool :=
  (benchResultOf r exe suite bench).isSome

/-- Whether a series with the given identity key exists under
(exe, suite, bench). -/
def seriesExists (r : ResultsByExeSuiteBenchmark) (exe suite bench : String)
    (k : Nat × String × Nat × Nat × String) : Bool :=
  ((benchResultOf r exe suite bench).map
    (fun pr => pr.measurements.any (fun m => seriesKey m = k))).getD false

/-- Read one grid cell (one-based invocation and iteration, stored
zero-based; holes and absent slots read as `none`). -/
def getCell (grid : List (Option (List (Option Int))))
    (invocation iteration : Nat) : Option Int :=
  match grid.getD (invocation - 1) none with
  | none => none
  | some inner => inner.getD (iteration - 1) none

/-- The first series in a series list matching the series part of the
coordinates, exactly as `findMeasurements` scans. -/
def findSeries (ms : List Measurements) (c : CellCoord) :
    Option Measurements :=
  ms.find? (fun m => seriesKey m = coordSeriesKey c)

/-- Read the cell at the coordinates from a series list: grid of the
first series matching the series part. -/
def seriesCellLookup (ms : List Measurements) (c : CellCoord) : Option Int :=
  (findSeries ms c).bind (fun m => getCell m.values c.invocation c.iteration)

/-- Read the measurement value stored at full cell coordinates: find the
benchmark's first series matching the series part (as `findMeasurements`
would) and read its grid. -/
def cellLookup (r : ResultsByExeSuiteBenchmark) (c : CellCoord) :
    Option Int :=
  (benchResultOf r c.exe c.suite c.bench).bind
    (fun pr => seriesCellLookup pr.measurements c)

/-- The names in a suite's criteria record, in record order. -/
def criteriaNamesOf (r : ResultsByExeSuiteBenchmark) (exe suite : String) :
    Option (List String) :=
  (suiteResultOf r exe suite).map (fun rb => rb.criteria.map Prod.fst)

/-- Last-write-wins view of a row list at fixed cell coordinates: the
value of the last row writing these coordinates. -/
def lastMatch (l : List MeasurementData) (c : CellCoord) : Option Int :=
  l.foldl (fun acc row => if coordOf row = c then some row.value else acc)
    none

/-- First-occurrence deduplication, inaggregation order. -/
def dedupFirst (l : List String) : List String :=
  l.foldl (fun acc n => if n ∈ acc then acc else acc ++ [n]) []

/-- The criterion names of the rows belonging to one (exe, suite), in row
order. -/
def suiteCritNames (data : List MeasurementData) (exe suite : String) :
    List String :=
  data.filterMap (fun row =>
    if row.exe = exe ∧ row.suite = suite then some row.criterion else none)

/-- Modelled from the spec (§3 DATA MODEL): the full identity tuple of a
`MeasurementRow` — note that it includes the measured `value`. -/
structure SpecIdentityTuple where
  executionUnit : String
  suite : String
  benchmark : String
  criterionName : String
  unit : String
  commandLine : String
  varValue : Option String
  cores : Option String
  inputSize : Option String
  extraArgs : Option String
  warmup : Option String
  environmentId : Nat
  commitId : String
  runId : Nat
  trialId : Nat
  experimentId : Nat
  invocation : Nat
  iteration : Nat
  value : Int
deriving DecidableEq, Repr

/-- The full identity tuple of a row, for stating the permutation claim
exactly as the spec words it. -/
def specIdentityTuple (row : MeasurementData) : SpecIdentityTuple :=
  { executionUnit := row.exe
    suite := row.suite
    benchmark := row.bench
    criterionName := row.criterion
    unit := row.unit
    commandLine := row.cmdline
    varValue := row.varvalue
    cores := row.cores
    inputSize := row.inputsize
    extraArgs := row.extraargs
    warmup := row.warmup
    environmentId := row.envid
    commitId := row.commitid
    runId := row.runid
    trialId := row.trialid
    experimentId := row.expid
    invocation := row.invocation
    iteration := row.iteration
    value := row.value }

/-- A string containing no `'|'` separator, so that the composite
`` name|unit `` criteria key determines name and unit unambiguously. -/
@[reducible] def noPipe (s : String) : Prop :=
  '|' ∉ s.data

/-- Wellformedness of the shared criteria map: every entry's key is the
composite key of its record and the record's name is pipe-free. -/
def criteriaWF (criteria : List (String × CriterionData)) : Prop :=
  ∀ e ∈ criteria,
    e.1 = e.2.name ++ "|" ++ e.2.unit ∧ noPipe e.2.name

/-- Rows a collation run is expected to process: one-based invocation and
iteration (as produced by the database) and a pipe-free criterion name. -/
@[reducible] def rowWF (row : MeasurementData) : Prop :=
  1 ≤ row.invocation ∧ 1 ≤ row.iteration ∧ noPipe row.criterion

/-- Cell coordinates with one-based invocation and iteration. -/
@[reducible] def coordWF (c : CellCoord) : Prop :=
  1 ≤ c.invocation ∧ 1 ≤ c.iteration

/-- The structural invariant of the collation state: the shared criteria
map is wellformed, keys are distinct at every nesting level, and every
series' criterion name is recorded in its suite's criteria record. -/
def collateInv (st : CollateState) : Prop :=
  criteriaWF st.criteria ∧
  (st.byExeSuiteBench.map Prod.fst).Nodup ∧
  ∀ p ∈ st.byExeSuiteBench,
    (p.2.map Prod.fst).Nodup ∧
    ∀ q ∈ p.2,
      (q.2.benchmarks.map Prod.fst).Nodup ∧
      ∀ be ∈ q.2.benchmarks, ∀ m ∈ be.2.measurements,
        m.criterion.name ∈ q.2.criteria.map Prod.fst

/-- The pending-table invariant of claim C4: no two pending jobs share
their (trialId, runId, criterionId) key, and every pending job holds at
least one value. -/
def pendingTableWellFormed (st : UpdaterState) : Prop :=
  List.Pairwise
    (fun j1 j2 =>
      ¬(j1.trialId = j2.trialId ∧ j1.runId = j2.runId ∧
        j1.criterion = j2.criterion))
    (st.requests.map Prod.snd) ∧
  ∀ j ∈ st.requests.map Prod.snd, j.dataForCriterion ≠ []

/-- An association-list level is sorted by the numeric-aware comparator on
its keys. -/
def sortedByKeys {β : Type} (m : List (String × β)) : Prop :=
  List.Pairwise (fun a b => natLe a.1 b.1 = true) m

end ReBenchDB

namespace ReBenchDB

/-! ## Association-list lemmas -/

theorem mapGet_mapSet_same {β : Type} (m : List (String × β)) (k : String)
    (v : β) : mapGet (mapSet m k v) k = some v := by
  induction m with
  | nil => simp [mapGet, mapSet]
  | cons p rest ih =>
    by_cases h : p.1 = k
    · simp [mapGet, mapSet, h]
    · simp [mapGet, mapSet, h, ih]

theorem mapGet_mapSet_ne {β : Type} (m : List (String × β)) (k k' : String)
    (v : β) (h : k' ≠ k) : mapGet (mapSet m k v) k' = mapGet m k' := by
  have hk : k ≠ k' := Ne.symm h
  induction m with
  | nil => simp [mapGet, mapSet, hk]
  | cons p rest ih =>
    by_cases hp : p.1 = k
    · subst hp
      simp [mapGet, mapSet, hk]
    · simp [mapGet, mapSet, hp, ih]

theorem mapGet_eq_none_iff {β : Type} (m : List (String × β)) (k : String) :
    mapGet m k = none ↔ k ∉ m.map Prod.fst := by
  induction m with
  | nil => simp [mapGet]
  | cons p rest ih =>
    by_cases h : p.1 = k <;> simp [mapGet, h, ih] <;> tauto

theorem mapGet_eq_some_mem {β : Type} (m : List (String × β)) (k : String)
    (v : β) (h : mapGet m k = some v) : (k, v) ∈ m := by
  induction m with
  | nil => simp [mapGet] at h
  | cons p rest ih =>
    by_cases hp : p.1 = k
    · rw [show p = (p.1, p.2) from rfl] at h ⊢
      simp only [mapGet, if_pos hp] at h
      simp [hp, ← Option.some_inj.mp h]
    · rw [show p = (p.1, p.2) from rfl] at h
      simp only [mapGet, if_neg hp] at h
      exact List.mem_cons_of_mem _ (ih h)

theorem mapSet_keys_present {β : Type} (m : List (String × β)) (k : String)
    (v : β) (h : k ∈ m.map Prod.fst) :
    (mapSet m k v).map Prod.fst = m.map Prod.fst := by
  induction m with
  | nil => simp at h
  | cons p rest ih =>
    by_cases hp : p.1 = k
    · simp [mapSet, hp]
    · simp only [List.map_cons, List.mem_cons] at h
      rcases h with h | h


      · exact absurd h.symm hp
      · simp [mapSet, hp, ih h]

theorem mapSet_keys_absent {β : Type} (m : List (String × β)) (k : String)
    (v : β) (h : k ∉ m.map Prod.fst) :
    (mapSet m k v).map Prod.fst = m.map Prod.fst ++ [k] := by
  induction m with
  | nil => simp [mapSet]
  | cons p rest ih =>
    simp only [List.map_cons, List.mem_cons] at h
    push_neg at h
    by_cases hp : p.1 = k
    · exact absurd hp.symm h.1
    · simp [mapSet, hp, ih h.2]

/-! ## Claim C3: `submitUpdateJobs` on an empty pending table -/

/-- C3: when the pending-job table is empty, `submitUpdateJobs` returns a
promise already resolved to 0, sends no request to the statistics worker,
and leaves the state untouched. -/
theorem submitUpdateJobs_empty_table (st : UpdaterState) (requestStart : Nat)
    (h : st.requests = []) :
    (submitUpdateJobs st requestStart).immediateResult = some 0 ∧
    (submitUpdateJobs st requestStart).sent = none ∧
    (submitUpdateJobs st requestStart).state = st := by
  cases st
  simp_all [submitUpdateJobs, consumeUpdateJobsForBenchmarking,
    processUpdateJobs]

theorem submitUpdateJobs_empty_table_witness :
    (submitUpdateJobs initialUpdaterState 7).immediateResult = some 0 ∧
    (submitUpdateJobs initialUpdaterState 7).sent = none ∧
    (submitUpdateJobs initialUpdaterState 7).state = initialUpdaterState :=
  submitUpdateJobs_empty_table initialUpdaterState 7 rfl

/-! ## Claim C2: `addValues` accumulates the non-null values in call
order -/

theorem addValues_fold_present (runId trialId criterionId : Nat)
    (vss : List (List (Option Int))) :
    ∀ (st : UpdaterState) (j : ComputeJob),
      mapGet st.requests (mkKey trialId runId criterionId) = some j →
      mapGet
        ((vss.foldl
          (fun s vs => addValues s runId trialId criterionId vs) st).requests)
        (mkKey trialId runId criterionId) =
      some { j with dataForCriterion :=
          j.dataForCriterion ++
          (vss.map (fun vs => vs.filterMap (fun v => v))).flatten } := by
  induction vss with
  | nil => intro st j h; simpa using h
  | cons vs rest ih =>
    intro st j h
    have step :
        mapGet (addValues st runId trialId criterionId vs).requests
          (mkKey trialId runId criterionId) =
        some { j with dataForCriterion :=
            j.dataForCriterion ++ vs.filterMap (fun v => v) } := by
      simp only [addValues, h]
      exact mapGet_mapSet_same _ _ _
    have := ih (addValues st runId trialId criterionId vs)
      { j with dataForCriterion :=
          j.dataForCriterion ++ vs.filterMap (fun v => v) } step
    simpa [List.append_assoc] using this

theorem addValues_fold_absent (runId trialId criterionId : Nat)
    (vss : List (List (Option Int))) :
    ∀ (st : UpdaterState),
      mapGet st.requests (mkKey trialId runId criterionId) = none →
      mapGet
        ((vss.foldl
          (fun s vs => addValues s runId trialId criterionId vs) st).requests)
        (mkKey trialId runId criterionId) =
      (if (vss.map (fun vs => vs.filterMap (fun v => v))).flatten = []
       then none
       else some
         { runId := runId, trialId := trialId, criterion := criterionId,
           dataForCriterion :=
             (vss.map (fun vs => vs.filterMap (fun v => v))).flatten }) := by
  induction vss with
  | nil => intro st h; simpa using h
  | cons vs rest ih =>
    intro st h
    by_cases hvs : vs.filterMap (fun v : Option Int => v) = []
    · have step : addValues st runId trialId criterionId vs = st := by
        simp [addValues, h, hvs]
      simp only [List.foldl_cons, step, List.map_cons, List.flatten_cons,
        hvs, List.nil_append]
      exact ih st h
    · have step :
          mapGet (addValues st runId trialId criterionId vs).requests
            (mkKey trialId runId criterionId) =
          some { runId := runId, trialId := trialId,
                 criterion := criterionId,
                 dataForCriterion := vs.filterMap (fun v => v) } := by
        simp only [addValues, h, hvs, if_neg hvs]
        exact mapGet_mapSet_same _ _ _
      have := addValues_fold_present runId trialId criterionId rest
        (addValues st runId trialId criterionId vs)
        { runId := runId, trialId := trialId, criterion := criterionId,
          dataForCriterion := vs.filterMap (fun v => v) } step
      have hne :
          vs.filterMap (fun v : Option Int => v) ++
            (rest.map (fun vs => vs.filterMap (fun v : Option Int => v))).flatten ≠
          [] := by
        intro hc
        exact hvs (List.append_eq_nil.mp hc).1
      simp only [List.foldl_cons, List.map_cons, List.flatten_cons]
      rw [if_neg hne]
      simpa using this

/-- C2: for a fixed (runId, trialId, criterionId) key that is not yet in
the pending table, a sequence of `addValues` calls with that key leaves
the table's job for that key holding exactly the concatenation, in call
order, of the non-null values of each call; calls whose values are all
null contribute nothing, and if every call was all-null no job exists. -/
theorem addValues_concatenation (st : UpdaterState)
    (runId trialId criterionId : Nat) (vss : List (List (Option Int)))
    (h : mapGet st.requests (mkKey trialId runId criterionId) = none) :
    mapGet
      ((vss.foldl
        (fun s vs => addValues s runId trialId criterionId vs) st).requests)
      (mkKey trialId runId criterionId) =
    (if (vss.map (fun vs => vs.filterMap (fun v => v))).flatten = []
     then none
     else some
       { runId := runId, trialId := trialId, criterion := criterionId,
         dataForCriterion :=
           (vss.map (fun vs => vs.filterMap (fun v => v))).flatten }) :=
  addValues_fold_absent runId trialId criterionId vss st h

theorem addValues_concatenation_witness :
    mapGet
      (([[none, some 1, some 2], [none, none], [some 3]].foldl
        (fun s vs => addValues s 4 5 6 vs) initialUpdaterState).requests)
      (mkKey 5 4 6) =
    (if (([[none, some 1, some 2], [none, none],
           [some 3]].map (fun vs => vs.filterMap (fun v => v))).flatten = [])
     then none
     else some
       { runId := 4, trialId := 5, criterion := 6,
         dataForCriterion :=
           ([[none, some 1, some 2], [none, none],
             [some 3]].map (fun vs => vs.filterMap (fun v => v))).flatten }) :=
  addValues_concatenation initialUpdaterState 4 5 6
    [[none, some 1, some 2], [none, none], [some 3]] rfl

/-! ## Claim C4: the pending-table invariant -/

theorem mapSet_absent_eq_append {β : Type} (m : List (String × β))
    (k : String) (v : β) (h : k ∉ m.map Prod.fst) :
    mapSet m k v = m ++ [(k, v)] := by
  induction m with
  | nil => simp [mapSet]
  | cons p rest ih =>
    simp only [List.map_cons, List.mem_cons] at h
    push_neg at h
    by_cases hp : p.1 = k
    · exact absurd hp.symm h.1
    · simp [mapSet, hp, ih h.2]

theorem mem_mapSet {β : Type} (m : List (String × β)) (k : String) (v : β)
    (e : String × β) (h : e ∈ mapSet m k v) : e ∈ m ∨ e = (k, v) := by
  induction m with
  | nil => simp [mapSet] at h; simp [h]
  | cons p rest ih =>
    by_cases hp : p.1 = k
    · simp only [mapSet, if_pos hp, List.mem_cons] at h
      rcases h with h | h
      · right; exact h
      · left; exact List.mem_cons_of_mem _ h
    · simp only [mapSet, if_neg hp, List.mem_cons] at h
      rcases h with h | h
      · left; simp [h]
      · rcases ih h with h' | h'
        · left; exact List.mem_cons_of_mem _ h'
        · right; exact h'

/-- The internal invariant behind C4: entry keys are exactly the
composite keys of their jobs, keys are distinct, and job data is
non-empty. -/
theorem updater_invariant_step (st : UpdaterState) (op : UpdaterOp)
    (hkey : ∀ e ∈ st.requests,
      e.1 = mkKey e.2.trialId e.2.runId e.2.criterion)
    (hnd : (st.requests.map Prod.fst).Nodup)
    (hne : ∀ e ∈ st.requests, e.2.dataForCriterion ≠ []) :
    (∀ e ∈ (applyOp st op).requests,
      e.1 = mkKey e.2.trialId e.2.runId e.2.criterion) ∧
    ((applyOp st op).requests.map Prod.fst).Nodup ∧
    (∀ e ∈ (applyOp st op).requests, e.2.dataForCriterion ≠ []) := by
  cases op with
  | submit rs =>
    by_cases hj : st.requests.map Prod.snd = []
    · simp only [applyOp, submitUpdateJobs, consumeUpdateJobsForBenchmarking,
        processUpdateJobs, hj, if_pos rfl]
      simp
    · simp only [applyOp, submitUpdateJobs, consumeUpdateJobsForBenchmarking,
        processUpdateJobs]
      rw [if_neg hj]
      simp
  | add runId trialId criterionId vs =>
    set key := mkKey trialId runId criterionId with hkdef
    simp only [applyOp, addValues, ← hkdef]
    cases hget : mapGet st.requests key with
    | none =>
      by_cases hvs : vs.filterMap (fun v : Option Int => v) = []
      · simp only [hvs, if_pos rfl]
        exact ⟨hkey, hnd, hne⟩
      · rw [if_neg hvs]
        have habs : key ∉ st.requests.map Prod.fst :=
          (mapGet_eq_none_iff _ _).mp hget
        rw [mapSet_absent_eq_append _ _ _ habs]
        refine ⟨?_, ?_, ?_⟩
        · intro e he
          rcases List.mem_append.mp he with h | h
          · exact hkey e h
          · simp only [List.mem_singleton] at h
            subst h
            rfl
        · simp only [List.map_append, List.map_cons, List.map_nil]
          exact List.Nodup.append hnd (List.nodup_singleton _)
            (by simpa [List.disjoint_singleton] using habs)
        · intro e he
          rcases List.mem_append.mp he with h | h
          · exact hne e h
          · simp only [List.mem_singleton] at h
            subst h
            simpa using hvs
    | some job =>
      have hmem : (key, job) ∈ st.requests := mapGet_eq_some_mem _ _ _ hget
      have hpres : key ∈ st.requests.map Prod.fst := by
        exact List.mem_map.mpr ⟨(key, job), hmem, rfl⟩
      refine ⟨?_, ?_, ?_⟩
      · intro e he
        rcases mem_mapSet _ _ _ _ he with h | h
        · exact hkey e h
        · subst h
          have := hkey (key, job) hmem
          simpa using this
      · rw [mapSet_keys_present _ _ _ hpres]
        exact hnd
      · intro e he
        rcases mem_mapSet _ _ _ _ he with h | h
        · exact hne e h
        · subst h
          have hj := hne (key, job) hmem
          simp only at hj ⊢
          intro hc
          exact hj (List.append_eq_nil.mp hc).1

theorem updater_invariant_fold (ops : List UpdaterOp) :
    ∀ (st : UpdaterState),
      (∀ e ∈ st.requests,
        e.1 = mkKey e.2.trialId e.2.runId e.2.criterion) →
      (st.requests.map Prod.fst).Nodup →
      (∀ e ∈ st.requests, e.2.dataForCriterion ≠ []) →
      (∀ e ∈ (ops.foldl applyOp st).requests,
        e.1 = mkKey e.2.trialId e.2.runId e.2.criterion) ∧
      ((ops.foldl applyOp st).requests.map Prod.fst).Nodup ∧
      (∀ e ∈ (ops.foldl applyOp st).requests,
        e.2.dataForCriterion ≠ []) := by
  induction ops with
  | nil => intro st h1 h2 h3; exact ⟨h1, h2, h3⟩
  | cons op rest ih =>
    intro st h1 h2 h3
    have step := updater_invariant_step st op h1 h2 h3
    exact ih (applyOp st op) step.1 step.2.1 step.2.2

/-- C4: after any sequence of `addValues` and `submitUpdateJobs`
operations starting from the constructor state, the pending-job table
holds at most one job per (trialId, runId, criterionId) key, and every
job in it carries at least one value. -/
theorem pending_table_invariant (ops : List UpdaterOp) :
    pendingTableWellFormed (runOps ops) := by
  have h := updater_invariant_fold ops initialUpdaterState
    (by simp [initialUpdaterState]) (by simp [initialUpdaterState])
    (by simp [initialUpdaterState])
  obtain ⟨hkey, hnd, hne⟩ := h
  constructor
  · have hp : List.Pairwise (fun a b : String × ComputeJob => a.1 ≠ b.1)
        (runOps ops).requests := List.pairwise_map.mp hnd
    rw [List.pairwise_map]
    refine hp.imp_of_mem ?_
    intro a b ha hb hne' hc
    apply hne'
    rw [hkey a ha, hkey b hb, hc.1, hc.2.1, hc.2.2]
  · intro j hj
    rcases List.mem_map.mp hj with ⟨e, he, hej⟩
    rw [← hej]
    exact hne e he

/-! ## Claims C5 and C10: persistence during `receiveResults` -/

theorem recordLoop_all_success (db : DbBehavior) (results : List ComputeResult)
    (h : ∀ res ∈ results, db (toCall res) = true) :
    recordLoop db results = (results.map toCall, true) := by
  induction results with
  | nil => rfl
  | cons res rest ih =>
    have hres := h res (List.mem_cons_self ..)
    have hrest := ih (fun r hr => h r (List.mem_cons_of_mem _ hr))
    simp [recordLoop, hres, hrest]

theorem recordLoop_failure (db : DbBehavior) (pre post : List ComputeResult)
    (f : ComputeResult) (hpre : ∀ res ∈ pre, db (toCall res) = true)
    (hf : db (toCall f) = false) :
    recordLoop db (pre ++ f :: post) = (pre.map toCall ++ [toCall f], false) := by
  induction pre with
  | nil => simp [recordLoop, hf]
  | cons res rest ih =>
    have hres := hpre res (List.mem_cons_self ..)
    have hrest := ih (fun r hr => hpre r (List.mem_cons_of_mem _ hr))
    simp [recordLoop, hres, hrest]

theorem receiveResults_calls (db : DbBehavior) (st : UpdaterState)
    (r : ComputeResults) :
    (receiveResults db st r).1 = (recordLoop db r.results).1 := by
  simp only [receiveResults]
  split
  · split
    · rfl
    · rfl
  · rfl

/-- C5: within one result batch, `receiveResults` makes exactly one
`recordTimeline` call per result, in the batch's arrival order, with no
retries; and when a call fails, no further result of that batch is
persisted (the calls stop right after the failing one). -/
theorem receive_persistence_order (db : DbBehavior) (st : UpdaterState)
    (pre post : List ComputeResult) (f : ComputeResult) (rs : Nat)
    (hpre : ∀ res ∈ pre, db (toCall res) = true) :
    (receiveResults db st { results := pre, requestStart := rs }).1 =
      pre.map toCall ∧
    (db (toCall f) = false →
      (receiveResults db st
        { results := pre ++ f :: post, requestStart := rs }).1 =
      pre.map toCall ++ [toCall f]) := by
  constructor
  · rw [receiveResults_calls]
    simp [recordLoop_all_success db pre hpre]
  · intro hf
    rw [receiveResults_calls]
    simp [recordLoop_failure db pre post f hpre hf]

theorem receive_persistence_order_witness :
    (receiveResults (fun call => call.runId ≠ 3) initialUpdaterState
      { results := [{ runId := 1, trialId := 1, criterion := 1,
                      stats := ⟨0, 1, 0, 0⟩ }],
        requestStart := 5 }).1 =
      [{ runId := 1, trialId := 1, criterion := 1,
         stats := ⟨0, 1, 0, 0⟩ }].map toCall ∧
    ((fun call : RecordTimelineCall => decide (call.runId ≠ 3))
        (toCall { runId := 3, trialId := 1, criterion := 1,
                  stats := ⟨0, 1, 0, 0⟩ }) = false →
      (receiveResults (fun call => call.runId ≠ 3) initialUpdaterState
        { results := [{ runId := 1, trialId := 1, criterion := 1,
                        stats := ⟨0, 1, 0, 0⟩ }] ++
            { runId := 3, trialId := 1, criterion := 1,
              stats := ⟨0, 1, 0, 0⟩ } ::
            [{ runId := 2, trialId := 1, criterion := 1,
               stats := ⟨0, 1, 0, 0⟩ }],
          requestStart := 5 }).1 =
      [{ runId := 1, trialId := 1, criterion := 1,
         stats := ⟨0, 1, 0, 0⟩ }].map toCall ++
        [toCall { runId := 3, trialId := 1, criterion := 1,
                  stats := ⟨0, 1, 0, 0⟩ }]) :=
  receive_persistence_order (fun call => call.runId ≠ 3)
    initialUpdaterState
    [{ runId := 1, trialId := 1, criterion := 1, stats := ⟨0, 1, 0, 0⟩ }]
    [{ runId := 2, trialId := 1, criterion := 1, stats := ⟨0, 1, 0, 0⟩ }]
    { runId := 3, trialId := 1, criterion := 1, stats := ⟨0, 1, 0, 0⟩ }
    5 (by decide)

/-- C10: when a `recordTimeline` call fails mid-batch, `receiveResults`
leaves the whole updater state untouched — in particular the
`activeRequests` counter is not decremented at all and the wave's
completion handle is not resolved — even though the results before the
failing one were already persisted. -/
theorem receive_failure_leaves_state (db : DbBehavior) (st : UpdaterState)
    (pre post : List ComputeResult) (f : ComputeResult) (rs : Nat)
    (hpre : ∀ res ∈ pre, db (toCall res) = true)
    (hf : db (toCall f) = false) :
    (receiveResults db st
      { results := pre ++ f :: post, requestStart := rs }).2.1 = st ∧
    (receiveResults db st
      { results := pre ++ f :: post, requestStart := rs }).1 =
      pre.map toCall ++ [toCall f] := by
  have hloop := recordLoop_failure db pre post f hpre hf
  constructor
  · simp [receiveResults, hloop]
  · simp [receiveResults, hloop]

theorem receive_failure_leaves_state_witness :
    (receiveResults (fun call => call.runId ≠ 3)
      { requests := [], activeRequests := 2, requestsAtStart := 2,
        hasResolver := true, resolvedWith := none }
      { results := [{ runId := 1, trialId := 1, criterion := 1,
                      stats := ⟨0, 1, 0, 0⟩ }] ++
          { runId := 3, trialId := 1, criterion := 1,
            stats := ⟨0, 1, 0, 0⟩ } ::
          [{ runId := 2, trialId := 1, criterion := 1,
             stats := ⟨0, 1, 0, 0⟩ }],
        requestStart := 5 }).2.1 =
    { requests := [], activeRequests := 2, requestsAtStart := 2,
      hasResolver := true, resolvedWith := none } ∧
    (receiveResults (fun call => call.runId ≠ 3)
      { requests := [], activeRequests := 2, requestsAtStart := 2,
        hasResolver := true, resolvedWith := none }
      { results := [{ runId := 1, trialId := 1, criterion := 1,
                      stats := ⟨0, 1, 0, 0⟩ }] ++
          { runId := 3, trialId := 1, criterion := 1,
            stats := ⟨0, 1, 0, 0⟩ } ::
          [{ runId := 2, trialId := 1, criterion := 1,
             stats := ⟨0, 1, 0, 0⟩ }],
        requestStart := 5 }).1 =
    [{ runId := 1, trialId := 1, criterion := 1,
       stats := ⟨0, 1, 0, 0⟩ }].map toCall ++
      [toCall { runId := 3, trialId := 1, criterion := 1,
                stats := ⟨0, 1, 0, 0⟩ }] :=
  receive_failure_leaves_state (fun call => call.runId ≠ 3)
    { requests := [], activeRequests := 2, requestsAtStart := 2,
      hasResolver := true, resolvedWith := none }
    [{ runId := 1, trialId := 1, criterion := 1, stats := ⟨0, 1, 0, 0⟩ }]
    [{ runId := 2, trialId := 1, criterion := 1, stats := ⟨0, 1, 0, 0⟩ }]
    { runId := 3, trialId := 1, criterion := 1, stats := ⟨0, 1, 0, 0⟩ }
    5 (by decide) (by decide)

/-! ## Claim C1: one full wave returns the counter to 0 exactly once and
resolves the handle with the job count -/

theorem receiveResults_state_success (db : DbBehavior) (s : UpdaterState)
    (b : ComputeResults) (hdb : ∀ res ∈ b.results, db (toCall res) = true) :
    (receiveResults db s b).2.1 =
    (if s.activeRequests - b.results.length = 0 ∧ s.hasResolver = true ∧
        b.requestStart ≠ 0
     then { s with
              activeRequests := s.activeRequests - b.results.length,
              hasResolver := false,
              resolvedWith := some s.requestsAtStart }
     else { s with
              activeRequests := s.activeRequests - b.results.length }) := by
  simp only [receiveResults, recordLoop_all_success db _ hdb]
  norm_num
  split
  · rfl
  · rfl

theorem receive_phase (db : DbBehavior) (hdb : ∀ c, db c = true) :
    ∀ (bs : List ComputeResults), bs ≠ [] →
    ∀ (s : UpdaterState),
      (∀ b ∈ bs, b.results ≠ [] ∧ b.requestStart ≠ 0) →
      s.hasResolver = true → s.resolvedWith = none →
      s.activeRequests = (sumSizes bs : Int) →
      (runReceives db s bs).activeRequests = 0 ∧
      (runReceives db s bs).resolvedWith = some s.requestsAtStart ∧
      ∀ p q, bs = p ++ q → q ≠ [] →
        (runReceives db s p).activeRequests ≠ 0 ∧
        (runReceives db s p).resolvedWith = none := by
  intro bs
  induction bs with
  | nil => intro h; exact absurd rfl h
  | cons b rest ih =>
    intro _ s hb hres hrw hact
    have hbhead := hb b (List.mem_cons_self ..)
    have hbsum : sumSizes (b :: rest) = b.results.length + sumSizes rest := by
      simp [sumSizes]
    have hstep := receiveResults_state_success db s b (fun res _ => hdb _)
    have hrun : runReceives db s (b :: rest) =
        runReceives db ((receiveResults db s b).2.1) rest := rfl
    by_cases hrest : rest = []
    · subst hrest
      have hzero : s.activeRequests - (b.results.length : Int) = 0 := by
        rw [hact, hbsum]
        push_cast
        ring_nf
        simp [sumSizes]
      rw [hrun]
      have hstate : (receiveResults db s b).2.1 =
          { s with
              activeRequests := s.activeRequests - b.results.length,
              hasResolver := false,
              resolvedWith := some s.requestsAtStart } := by
        rw [hstep, if_pos ⟨hzero, hres, hbhead.2⟩]
      refine ⟨?_, ?_, ?_⟩
      · simp [runReceives, hstate, hzero]
      · simp [runReceives, hstate]
      · intro p q hpq hq
        rcases p with _ | ⟨p0, p'⟩
        · refine ⟨?_, ?_⟩
          · simp only [runReceives, List.foldl_nil]
            have hlen : 0 < b.results.length :=
              List.length_pos.mpr hbhead.1
            rw [hact, hbsum]
            have hz : (0 : Nat) = sumSizes [] := rfl
            intro hcc
            rw [show sumSizes ([] : List ComputeResults) = 0 from rfl] at hcc
            omega
          · simp [runReceives, hrw]
        · exfalso
          simp only [List.cons_append, List.cons.injEq] at hpq
          have htail : ([] : List ComputeResults) = p' ++ q := hpq.2
          exact hq (List.append_eq_nil.mp htail.symm).2
    · have hsumr : 0 < sumSizes rest := by
        rcases rest with _ | ⟨r0, r'⟩
        · exact absurd rfl hrest
        · have := hb r0 (List.mem_cons_of_mem _ (List.mem_cons_self ..))
          have hlen : r0.results.length ≠ 0 :=
            fun hc => this.1 (List.length_eq_zero.mp hc)
          simp only [sumSizes, List.map_cons, List.sum_cons]
          omega
      have hnz : ¬(s.activeRequests - (b.results.length : Int) = 0 ∧
          s.hasResolver = true ∧ b.requestStart ≠ 0) := by
        intro hc
        have := hc.1
        rw [hact, hbsum] at this
        push_cast at this
        omega
      have hstate : (receiveResults db s b).2.1 =
          { s with activeRequests :=
              s.activeRequests - b.results.length } := by
        rw [hstep, if_neg hnz]
      have hact' :
          ({ s with activeRequests :=
              s.activeRequests - b.results.length } :
            UpdaterState).activeRequests = (sumSizes rest : Int) := by
        simp only
        rw [hact, hbsum]
        push_cast
        ring
      have ihr := ih hrest
        { s with activeRequests := s.activeRequests - b.results.length }
        (fun bb hbb => hb bb (List.mem_cons_of_mem _ hbb))
        hres hrw hact'
      refine ⟨?_, ?_, ?_⟩
      · rw [hrun, hstate]; exact ihr.1
      · rw [hrun, hstate]; exact ihr.2.1
      · intro p q hpq hq
        rcases p with _ | ⟨p0, p'⟩
        · refine ⟨?_, ?_⟩
          · simp only [runReceives, List.foldl_nil]
            have hlen : 0 < b.results.length :=
              List.length_pos.mpr hbhead.1
            rw [hact, hbsum]
            intro hcc
            omega
          · simp [runReceives, hrw]
        · simp only [List.cons_append, List.cons.injEq] at hpq
          have hb0 : p0 = b := hpq.1.symm
          have hrest' : rest = p' ++ q := hpq.2
          have hpre := ihr.2.2 p' q hrest' hq
          subst hb0
          have hfold : runReceives db s (p0 :: p') =
              runReceives db ((receiveResults db s p0).2.1) p' := rfl
          rw [hfold, hstate]
          exact hpre

/-- C1: starting with no wave in flight, `submitUpdateJobs` on N > 0
pending jobs dispatches exactly those N jobs in one worker request and
returns a pending handle; once `receiveResults` has been called for
(non-empty) batches covering all N results, the `activeRequests` counter
is 0, having been non-zero after every proper prefix of the batches (it
returns to 0 exactly once), and the completion handle is resolved with
N. -/
theorem wave_quiescence (db : DbBehavior) (st : UpdaterState)
    (requestStart : Nat) (bs : List ComputeResults) (N : Nat)
    (hdb : ∀ c, db c = true)
    (hactive : st.activeRequests = 0) (hres : st.hasResolver = false)
    (hN : st.requests.length = N) (hNpos : 0 < N)
    (hb : ∀ b ∈ bs, b.results ≠ [] ∧ b.requestStart ≠ 0)
    (hcover : sumSizes bs = N) :
    ((submitUpdateJobs st requestStart).sent.map
      (fun r => r.jobs.length)) = some N ∧
    (submitUpdateJobs st requestStart).immediateResult = none ∧
    (runReceives db (submitUpdateJobs st requestStart).state bs).activeRequests
      = 0 ∧
    (runReceives db (submitUpdateJobs st requestStart).state bs).resolvedWith
      = some (N : Int) ∧
    ∀ p q, bs = p ++ q → q ≠ [] →
      (runReceives db (submitUpdateJobs st requestStart).state p).activeRequests
        ≠ 0 ∧
      (runReceives db (submitUpdateJobs st requestStart).state p).resolvedWith
        = none := by
  have hjobs : (st.requests.map Prod.snd).length = N := by
    simpa using hN
  have hjobs_ne : st.requests.map Prod.snd ≠ [] := by
    intro hc
    rw [hc] at hjobs
    simp at hjobs
    omega
  have hout : submitUpdateJobs st requestStart =
      { state :=
          { st with
              requests := []
              activeRequests := (0 : Int) + (N : Int)
              requestsAtStart := (0 : Int) + (N : Int)
              hasResolver := true
              resolvedWith := none }
        sent := some { jobs := st.requests.map Prod.snd,
                       requestStart := requestStart }
        immediateResult := none } := by
    simp only [submitUpdateJobs, consumeUpdateJobsForBenchmarking,
      processUpdateJobs]
    rw [if_neg hjobs_ne]
    simp [hactive, hjobs]
  have hbs_ne : bs ≠ [] := by
    intro hc
    rw [hc] at hcover
    simp [sumSizes] at hcover
    omega
  have hphase := receive_phase db hdb bs hbs_ne
    { st with
        requests := []
        activeRequests := (0 : Int) + (N : Int)
        requestsAtStart := (0 : Int) + (N : Int)
        hasResolver := true
        resolvedWith := none }
    hb rfl rfl (by simp [hcover])
  refine ⟨?_, ?_, ?_, ?_, ?_⟩
  · rw [hout]; simp [hjobs]
  · rw [hout]
  · rw [hout]; exact hphase.1
  · rw [hout]
    have := hphase.2.1
    simpa using this
  · intro p q hpq hq
    rw [hout]
    exact hphase.2.2 p q hpq hq

theorem wave_quiescence_witness :
    ((submitUpdateJobs (addValues initialUpdaterState 1 2 3 [some 5]) 9).sent.map
      (fun r => r.jobs.length)) = some 1 ∧
    (submitUpdateJobs (addValues initialUpdaterState 1 2 3 [some 5]) 9).immediateResult = none ∧
    (runReceives (fun _ => true)
      (submitUpdateJobs (addValues initialUpdaterState 1 2 3 [some 5]) 9).state
      [{ results := [{ runId := 1, trialId := 2, criterion := 3,
                       stats := ⟨5, 1, 5, 5⟩ }], requestStart := 9 }]).activeRequests = 0 ∧
    (runReceives (fun _ => true)
      (submitUpdateJobs (addValues initialUpdaterState 1 2 3 [some 5]) 9).state
      [{ results := [{ runId := 1, trialId := 2, criterion := 3,
                       stats := ⟨5, 1, 5, 5⟩ }], requestStart := 9 }]).resolvedWith = some (1 : Int) ∧
    ∀ p q,
      ([{ results := [{ runId := 1, trialId := 2, criterion := 3,
                        stats := ⟨5, 1, 5, 5⟩ }], requestStart := 9 }] :
        List ComputeResults) = p ++ q → q ≠ [] →
      (runReceives (fun _ => true)
        (submitUpdateJobs (addValues initialUpdaterState 1 2 3 [some 5]) 9).state
        p).activeRequests ≠ 0 ∧
      (runReceives (fun _ => true)
        (submitUpdateJobs (addValues initialUpdaterState 1 2 3 [some 5]) 9).state
        p).resolvedWith = none :=
  wave_quiescence (fun _ => true)
    (addValues initialUpdaterState 1 2 3 [some 5]) 9
    [{ results := [{ runId := 1, trialId := 2, criterion := 3,
                     stats := ⟨5, 1, 5, 5⟩ }], requestStart := 9 }]
    1 (fun _ => rfl) (by decide) (by decide) (by decide) (by decide)
    (by decide) (by decide)

/-! ## Claim C9: `shutdown` idempotence and resolution order -/

theorem runWorkerFrom_resolved (evs : List WorkerEvent) :
    ∀ (s : TimelineWorkerState),
      (runWorkerFrom s evs).shutdownResolved = true →
      s.shutdownResolved = true ∨
        WorkerEvent.response WorkerMessage.exiting ∈ evs := by
  induction evs with
  | nil => intro s h; exact Or.inl h
  | cons ev rest ih =>
    intro s h
    rcases ih (applyWorkerEvent s ev) h with h' | h'
    · cases ev with
      | shutdownCall =>
        simp only [applyWorkerEvent, shutdown] at h'
        cases hsp : s.shutdownPromise with
        | some p => rw [hsp] at h'; exact Or.inl h'
        | none => rw [hsp] at h'; exact Or.inl h'
      | response msg =>
        cases msg with
        | exiting => exact Or.inr (List.mem_cons_self ..)
        | results r =>
          simp only [applyWorkerEvent, processResponse] at h'
          exact Or.inl h'
    · exact Or.inr (List.mem_cons_of_mem _ h')

theorem runWorkerFrom_terminate (evs : List WorkerEvent) :
    ∀ (s : TimelineWorkerState),
      (s.shutdownResolved = true → s.terminateCalled = true) →
      (runWorkerFrom s evs).shutdownResolved = true →
      (runWorkerFrom s evs).terminateCalled = true := by
  induction evs with
  | nil => intro s hs h; exact hs h
  | cons ev rest ih =>
    intro s hs h
    refine ih (applyWorkerEvent s ev) ?_ h
    cases ev with
    | shutdownCall =>
      intro hr
      simp only [applyWorkerEvent, shutdown] at hr ⊢
      cases hsp : s.shutdownPromise with
      | some p => rw [hsp] at hr; exact hs hr
      | none => rw [hsp] at hr; exact hs hr
    | response msg =>
      cases msg with
      | exiting =>
        intro _
        simp only [applyWorkerEvent, processResponse]
        split
        · rfl
        · rfl
      | results r =>
        intro hr
        simp only [applyWorkerEvent, processResponse] at hr ⊢
        exact hs hr

/-- C9: `shutdown` is idempotent — after the first call, every further
call returns the very same completion handle and changes nothing — and
the shutdown promise is only ever resolved after the worker has sent its
`'exiting'` acknowledgement, at which point `worker.terminate()` (the
release of the worker's resources) has been invoked. -/
theorem shutdown_idempotent_resolution (st : TimelineWorkerState)
    (evs : List WorkerEvent) :
    (shutdown (shutdown st).1 = ((shutdown st).1, (shutdown st).2)) ∧
    ((runWorker evs).shutdownResolved = true →
      WorkerEvent.response WorkerMessage.exiting ∈ evs ∧
      (runWorker evs).terminateCalled = true) := by
  constructor
  · cases hsp : st.shutdownPromise with
    | some p => simp [shutdown, hsp]
    | none => simp [shutdown, hsp]
  · intro h
    constructor
    · rcases runWorkerFrom_resolved evs initialWorkerState h with h' | h'
      · simp [initialWorkerState] at h'
      · exact h'
    · exact runWorkerFrom_terminate evs initialWorkerState
        (by simp [initialWorkerState]) h

theorem shutdown_idempotent_resolution_witness :
    (shutdown (shutdown initialWorkerState).1 =
      ((shutdown initialWorkerState).1, (shutdown initialWorkerState).2)) ∧
    ((runWorker [WorkerEvent.shutdownCall,
        WorkerEvent.response WorkerMessage.exiting]).shutdownResolved = true →
      WorkerEvent.response WorkerMessage.exiting ∈
        [WorkerEvent.shutdownCall,
         WorkerEvent.response WorkerMessage.exiting] ∧
      (runWorker [WorkerEvent.shutdownCall,
        WorkerEvent.response WorkerMessage.exiting]).terminateCalled = true) :=
  shutdown_idempotent_resolution initialWorkerState
    [WorkerEvent.shutdownCall, WorkerEvent.response WorkerMessage.exiting]

/-! ## Claim C7: the concrete three-row collation example -/

/-- C7: collating the three rows sharing one series identity with
(invocation, iteration, value) = (1,1,10), (1,2,20), (2,1,30) yields
exactly one series for the benchmark, whose grid is `[[10,20],[30]]`
(one-based invocation and iteration stored at zero-based indices). -/
theorem collate_three_row_example :
    (benchResultOf
      (collateMeasurements
        [⟨"A", "S", "B", "total", "ms", "cmd", none, none, none, none,
          none, 1, "c1", 1, 1, 1, 1, 1, 10⟩,
         ⟨"A", "S", "B", "total", "ms", "cmd", none, none, none, none,
          none, 1, "c1", 1, 1, 1, 1, 2, 20⟩,
         ⟨"A", "S", "B", "total", "ms", "cmd", none, none, none, none,
          none, 1, "c1", 1, 1, 1, 2, 1, 30⟩])
      "A" "S" "B").map
      (fun pr => pr.measurements.map (fun m => m.values)) =
    some [[some [some 10, some 20], some [some 30]]] := by
  decide

/-! ## The comparator: totality and transitivity -/

theorem lexLe_total : ∀ a b : List Nat, lexLe a b = true ∨ lexLe b a = true := by
  intro a
  induction a with
  | nil => intro b; left; rfl
  | cons x xs ih =>
    intro b
    cases b with
    | nil => right; rfl
    | cons y ys =>
      simp only [lexLe]
      rcases Nat.lt_trichotomy x y with h | h | h
      · left; simp [h]
      · subst h
        rcases ih ys with h' | h'
        · left; simp [show ¬x < x by omega, h']
        · right; simp [show ¬x < x by omega, h']
      · right; simp [h]

theorem lexLe_trans :
    ∀ a b c : List Nat, lexLe a b = true → lexLe b c = true →
      lexLe a c = true := by
  intro a
  induction a with
  | nil => intro b c _ _; rfl
  | cons x xs ih =>
    intro b c hab hbc
    cases b with
    | nil => simp [lexLe] at hab
    | cons y ys =>
      cases c with
      | nil => simp [lexLe] at hbc
      | cons z zs =>
        simp only [lexLe] at hab hbc ⊢
        rcases Nat.lt_trichotomy x y with hxy | hxy | hxy
        · rcases Nat.lt_trichotomy y z with hyz | hyz | hyz
          · simp [show x < z by omega]
          · subst hyz; simp [hxy]
          · rw [if_neg (by omega), if_pos hyz] at hbc
            exact absurd hbc (by simp)
        · subst hxy
          rw [if_neg (by omega), if_neg (by omega)] at hab
          rcases Nat.lt_trichotomy x z with hxz | hxz | hxz
          · simp [hxz]
          · subst hxz
            rw [if_neg (by omega), if_neg (by omega)] at hbc
            rw [if_neg (by omega), if_neg (by omega)]
            exact ih ys zs hab hbc
          · rw [if_neg (by omega), if_pos hxz] at hbc
            exact absurd hbc (by simp)
        · rw [if_neg (by omega), if_pos hxy] at hab
          exact absurd hab (by simp)

theorem natLe_total (a b : String) : natLe a b = true ∨ natLe b a = true :=
  lexLe_total (natKey a.data) (natKey b.data)

theorem natLe_trans (a b c : String) (hab : natLe a b = true)
    (hbc : natLe b c = true) : natLe a c = true :=
  lexLe_trans (natKey a.data) (natKey b.data) (natKey c.data) hab hbc

/-! ## The stable sort: permutation and sortedness -/

theorem perm_insertLe {α : Type} (le : α → α → Bool) (x : α) :
    ∀ l : List α, (insertLe le x l).Perm (x :: l) := by
  intro l
  induction l with
  | nil => simp [insertLe]
  | cons y ys ih =>
    by_cases h : le x y
    · simp [insertLe, h]
    · simp only [insertLe, if_neg h]
      exact (List.Perm.cons y ih).trans (List.Perm.swap x y ys)

theorem perm_stableSort {α : Type} (le : α → α → Bool) :
    ∀ l : List α, (stableSort le l).Perm l := by
  intro l
  induction l with
  | nil => simp [stableSort]
  | cons x xs ih =>
    exact (perm_insertLe le x _).trans (List.Perm.cons x ih)

theorem sorted_insertLe {α : Type} (le : α → α → Bool)
    (htot : ∀ a b, le a b = true ∨ le b a = true)
    (htrans : ∀ a b c, le a b = true → le b c = true → le a c = true)
    (x : α) :
    ∀ l : List α, List.Pairwise (fun a b => le a b = true) l →
      List.Pairwise (fun a b => le a b = true) (insertLe le x l) := by
  intro l
  induction l with
  | nil => intro _; simp [insertLe]
  | cons y ys ih =>
    intro h
    rcases List.pairwise_cons.mp h with ⟨hy, hys⟩
    by_cases hxy : le x y
    · simp only [insertLe, if_pos hxy]
      refine List.pairwise_cons.mpr ⟨?_, h⟩
      intro z hz
      rcases List.mem_cons.mp hz with hz | hz
      · subst hz; exact hxy
      · exact htrans x y z hxy (hy z hz)
    · simp only [insertLe, if_neg hxy]
      have hyx : le y x = true := by
        rcases htot x y with h' | h'
        · exact absurd h' hxy
        · exact h'
      refine List.pairwise_cons.mpr ⟨?_, ih hys⟩
      intro z hz
      have hz' := (perm_insertLe le x ys).mem_iff.mp hz
      rcases List.mem_cons.mp hz' with hz' | hz'
      · subst hz'; exact hyx
      · exact hy z hz'

theorem sorted_stableSort {α : Type} (le : α → α → Bool)
    (htot : ∀ a b, le a b = true ∨ le b a = true)
    (htrans : ∀ a b c, le a b = true → le b c = true → le a c = true) :
    ∀ l : List α,
      List.Pairwise (fun a b => le a b = true) (stableSort le l) := by
  intro l
  induction l with
  | nil => simp [stableSort]
  | cons x xs ih => exact sorted_insertLe le htot htrans x _ ih

/-! ## Lookup is preserved by permutation of distinct-key entries and by
value transformation -/

theorem mapGet_of_mem_nodup {β : Type} (m : List (String × β)) (k : String)
    (v : β) (hnd : (m.map Prod.fst).Nodup) (hmem : (k, v) ∈ m) :
    mapGet m k = some v := by
  induction m with
  | nil => simp at hmem
  | cons p rest ih =>
    simp only [List.map_cons, List.nodup_cons] at hnd
    rcases List.mem_cons.mp hmem with h | h
    · rw [← h]
      simp [mapGet]
    · by_cases hp : p.1 = k
      · exfalso
        apply hnd.1
        rw [hp]
        exact List.mem_map.mpr ⟨(k, v), h, rfl⟩
      · simp only [mapGet, if_neg hp]
        exact ih hnd.2 h

theorem mapGet_perm {β : Type} (m m' : List (String × β))
    (hperm : m.Perm m') (hnd : (m.map Prod.fst).Nodup) (k : String) :
    mapGet m k = mapGet m' k := by
  have hnd' : (m'.map Prod.fst).Nodup :=
    ((hperm.map Prod.fst).nodup_iff).mp hnd
  cases hget : mapGet m k with
  | some v =>
    have hmem := mapGet_eq_some_mem m k v hget
    have hmem' := hperm.mem_iff.mp hmem
    exact (mapGet_of_mem_nodup m' k v hnd' hmem').symm
  | none =>
    have hk := (mapGet_eq_none_iff m k).mp hget
    have hk' : k ∉ m'.map Prod.fst := by
      intro hc
      exact hk (((hperm.map Prod.fst).mem_iff).mpr hc)
    exact ((mapGet_eq_none_iff m' k).mpr hk').symm

theorem mapGet_sortByKey {β : Type} (m : List (String × β))
    (hnd : (m.map Prod.fst).Nodup) (k : String) :
    mapGet (sortByKey m) k = mapGet m k := by
  have hperm : (sortByKey m).Perm m := perm_stableSort _ m
  have hnd' : ((sortByKey m).map Prod.fst).Nodup :=
    ((hperm.map Prod.fst).nodup_iff).mpr hnd
  exact mapGet_perm _ m hperm hnd' k

theorem mapGet_map_value {β γ : Type} (m : List (String × β)) (g : β → γ)
    (k : String) :
    mapGet (m.map (fun p => (p.1, g p.2))) k = (mapGet m k).map g := by
  induction m with
  | nil => simp [mapGet]
  | cons p rest ih =>
    by_cases hp : p.1 = k
    · simp [mapGet, hp]
    · simp [mapGet, hp, ih]

/-! ## Grid lemmas: `setCell` writes one cell and nothing else -/

theorem length_padTo {α : Type} (l : List α) (n : Nat) (x : α) :
    (padTo l n x).length = max l.length n := by
  simp [padTo]
  omega

theorem getD_padTo {α : Type} (l : List α) (n : Nat) (x : α) (m : Nat) :
    (padTo l n x).getD m x = l.getD m x := by
  simp only [padTo, List.getD_eq_getElem?_getD, List.getElem?_append]
  by_cases h : m < l.length
  · simp [h]
  · rw [if_neg h]
    have hl : l[m]? = none := by
      rw [List.getElem?_eq_none_iff]
      omega
    rw [hl, List.getElem?_replicate]
    by_cases h2 : m - l.length < n - l.length
    · simp [h2]
    · simp [h2]

theorem getD_set_self {α : Type} (l : List α) (i : Nat) (a d : α)
    (h : i < l.length) : (l.set i a).getD i d = a := by
  simp [List.getD_eq_getElem?_getD, List.getElem?_set, h]

theorem getD_set_ne {α : Type} (l : List α) (i m : Nat) (a d : α)
    (h : i ≠ m) : (l.set i a).getD m d = l.getD m d := by
  simp [List.getD_eq_getElem?_getD, List.getElem?_set, h]

theorem getCell_setCell_same (g : List (Option (List (Option Int))))
    (invocation iteration : Nat) (v : Int) (hinv : 1 ≤ invocation)
    (hiter : 1 ≤ iteration) :
    getCell (setCell g invocation iteration v) invocation iteration =
      some v := by
  unfold getCell setCell
  simp only
  rw [getD_set_self _ _ _ _ (by rw [length_padTo]; omega)]
  dsimp only
  rw [getD_set_self _ _ _ _ (by rw [length_padTo]; omega)]

theorem getCell_setCell_ne (g : List (Option (List (Option Int))))
    (invocation iteration inv' iter' : Nat) (v : Int)
    (hinv : 1 ≤ invocation) (hiter : 1 ≤ iteration) (hinv' : 1 ≤ inv')
    (hiter' : 1 ≤ iter')
    (hne : invocation ≠ inv' ∨ iteration ≠ iter') :
    getCell (setCell g invocation iteration v) inv' iter' =
      getCell g inv' iter' := by
  unfold getCell setCell
  simp only
  by_cases hi : invocation - 1 = inv' - 1
  · have hinveq : invocation = inv' := by omega
    have hj : iteration - 1 ≠ iter' - 1 := by
      rcases hne with h | h
      · exact absurd hinveq h
      · omega
    rw [← hi]
    rw [getD_set_self _ _ _ _ (by rw [length_padTo]; omega)]
    dsimp only
    rw [getD_set_ne _ _ _ _ _ hj, getD_padTo, hi, getD_padTo]
    cases hg : g.getD (inv' - 1) none with
    | none => simp
    | some arr => simp
  · rw [getD_set_ne _ _ _ _ _ hi, getD_padTo]

/-! ## Series-list lemmas: `updateMeas` writes one series' cell -/

theorem measMatches_iff (m : Measurements) (row : MeasurementData) :
    measMatches m row = true ↔ seriesKey m = rowSeriesKey row := by
  simp [measMatches, seriesKey, rowSeriesKey, Prod.ext_iff, and_assoc]

theorem seriesKey_newSeries (row : MeasurementData) (crit : CriterionData)
    (rs : RunSettings) (hcrit : crit.name = row.criterion) :
    seriesKey (newSeries row crit rs) = rowSeriesKey row := by
  simp [seriesKey, newSeries, rowSeriesKey, hcrit]

theorem findSeries_nil (c : CellCoord) :
    findSeries [] c = none := rfl

theorem findSeries_cons_pos (m : Measurements) (ms : List Measurements)
    (c : CellCoord) (h : seriesKey m = coordSeriesKey c) :
    findSeries (m :: ms) c = some m := by
  simp [findSeries, List.find?, h]

theorem findSeries_cons_neg (m : Measurements) (ms : List Measurements)
    (c : CellCoord) (h : ¬seriesKey m = coordSeriesKey c) :
    findSeries (m :: ms) c = findSeries ms c := by
  simp only [findSeries, List.find?]
  rw [show (decide (seriesKey m = coordSeriesKey c)) = false by simp [h]]

theorem seriesCellLookup_nil (c : CellCoord) :
    seriesCellLookup [] c = none := rfl

theorem seriesCellLookup_cons (m : Measurements) (ms : List Measurements)
    (c : CellCoord) :
    seriesCellLookup (m :: ms) c =
    (if seriesKey m = coordSeriesKey c
     then getCell m.values c.invocation c.iteration
     else seriesCellLookup ms c) := by
  by_cases h : seriesKey m = coordSeriesKey c
  · simp [seriesCellLookup, findSeries_cons_pos m ms c h, h]
  · simp [seriesCellLookup, findSeries_cons_neg m ms c h, h]

theorem seriesCellLookup_updateMeas (row : MeasurementData)
    (crit : CriterionData) (rs : RunSettings)
    (hcrit : crit.name = row.criterion) (hrinv : 1 ≤ row.invocation)
    (hriter : 1 ≤ row.iteration) :
    ∀ (ms : List Measurements) (c : CellCoord), 1 ≤ c.invocation →
      1 ≤ c.iteration →
      seriesCellLookup (updateMeas row crit rs ms).1 c =
      (if coordSeriesKey c = rowSeriesKey row ∧
          c.invocation = row.invocation ∧ c.iteration = row.iteration
       then some row.value
       else seriesCellLookup ms c) := by
  intro ms
  induction ms with
  | nil =>
    intro c hcinv hciter
    simp only [updateMeas]
    rw [seriesCellLookup_cons, seriesKey_newSeries row crit rs hcrit]
    by_cases hk : coordSeriesKey c = rowSeriesKey row
    · rw [if_pos hk.symm]
      have hval : (newSeries row crit rs).values =
          setCell [] row.invocation row.iteration row.value := rfl
      rw [hval]
      by_cases hcell : c.invocation = row.invocation ∧
          c.iteration = row.iteration
      · rw [if_pos ⟨hk, hcell.1, hcell.2⟩, hcell.1, hcell.2]
        exact getCell_setCell_same [] row.invocation row.iteration
          row.value hrinv hriter
      · rw [if_neg (by tauto)]
        rw [getCell_setCell_ne [] row.invocation row.iteration c.invocation
          c.iteration row.value hrinv hriter hcinv hciter (by tauto)]
        simp [getCell, seriesCellLookup_nil]
    · rw [if_neg (fun hc => hk hc.symm), if_neg (by tauto)]
  | cons m ms ih =>
    intro c hcinv hciter
    by_cases hm : measMatches m row
    · have hmkey : seriesKey m = rowSeriesKey row :=
        (measMatches_iff m row).mp hm
      simp only [updateMeas, if_pos hm]
      rw [seriesCellLookup_cons, seriesCellLookup_cons]
      have hmkey' : seriesKey ({ m with values := (setCell m.values row.invocation row.iteration row.value) }) = seriesKey m := rfl
      rw [hmkey']
      by_cases hsc : seriesKey m = coordSeriesKey c
      · have hk : coordSeriesKey c = rowSeriesKey row := by
          rw [← hsc, hmkey]
        rw [if_pos hsc, if_pos hsc]
        by_cases hcell : c.invocation = row.invocation ∧
            c.iteration = row.iteration
        · rw [if_pos ⟨hk, hcell.1, hcell.2⟩]
          simp only
          rw [hcell.1, hcell.2]
          exact getCell_setCell_same m.values row.invocation row.iteration
            row.value hrinv hriter
        · rw [if_neg (by tauto)]
          simp only
          exact getCell_setCell_ne m.values row.invocation row.iteration
            c.invocation c.iteration row.value hrinv hriter hcinv hciter
            (by tauto)
      · have hk : ¬(coordSeriesKey c = rowSeriesKey row) := by
          intro hc
          exact hsc (by rw [hmkey, hc])
        rw [if_neg hsc, if_neg hsc, if_neg (by tauto)]
    · have hmkey : ¬seriesKey m = rowSeriesKey row := by
        intro hc
        exact hm ((measMatches_iff m row).mpr hc)
      simp only [updateMeas, if_neg hm]
      rw [seriesCellLookup_cons, seriesCellLookup_cons]
      by_cases hsc : seriesKey m = coordSeriesKey c
      · have hk : ¬(coordSeriesKey c = rowSeriesKey row) := by
          intro hc
          exact hmkey (by rw [hsc, hc])
        rw [if_pos hsc, if_pos hsc, if_neg (by tauto)]
      · rw [if_neg hsc, if_neg hsc]
        exact ih c hcinv hciter

theorem updateMeas_created (row : MeasurementData) (crit : CriterionData)
    (rs : RunSettings) (hcrit : crit.name = row.criterion) :
    ∀ ms : List Measurements,
      ((updateMeas row crit rs ms).2 = true ↔
        ∀ m ∈ ms, seriesKey m ≠ rowSeriesKey row) ∧
      (updateMeas row crit rs ms).1.map seriesKey =
        ms.map seriesKey ++
          (if (updateMeas row crit rs ms).2 = true
           then [rowSeriesKey row] else []) := by
  intro ms
  induction ms with
  | nil =>
    refine ⟨by simp [updateMeas], ?_⟩
    simp [updateMeas, seriesKey_newSeries row crit rs hcrit]
  | cons m ms ih =>
    by_cases hm : measMatches m row
    · have hmkey : seriesKey m = rowSeriesKey row :=
        (measMatches_iff m row).mp hm
      constructor
      · simp only [updateMeas, if_pos hm]
        simp only [Bool.false_eq_true, false_iff]
        push_neg
        exact ⟨m, List.mem_cons_self .., hmkey⟩
      · simp [updateMeas, if_pos hm]
        rfl
    · have hmkey : seriesKey m ≠ rowSeriesKey row := by
        intro hc
        exact hm ((measMatches_iff m row).mpr hc)
      constructor
      · simp only [updateMeas, if_neg hm]
        rw [ih.1]
        constructor
        · intro h mm hmm
          rcases List.mem_cons.mp hmm with h' | h'
          · rw [h']; exact hmkey
          · exact h mm h'
        · intro h mm hmm
          exact h mm (List.mem_cons_of_mem _ hmm)
      · simp only [updateMeas, if_neg hm, List.map_cons]
        rw [ih.2]
        simp

/-! ## The composite criteria key is unambiguous for pipe-free names -/

theorem pipe_split_inj :
    ∀ (xs ys xs' ys' : List Char), '|' ∉ xs → '|' ∉ xs' →
      xs ++ '|' :: ys = xs' ++ '|' :: ys' → xs = xs' ∧ ys = ys' := by
  intro xs
  induction xs with
  | nil =>
    intro ys xs' ys' _ hx' heq
    cases xs' with
    | nil => simpa using heq
    | cons c rest =>
      simp only [List.nil_append, List.cons_append, List.cons.injEq] at heq
      exfalso
      apply hx'
      rw [heq.1]
      exact List.mem_cons_self ..
  | cons c rest ih =>
    intro ys xs' ys' hx hx' heq
    cases xs' with
    | nil =>
      simp only [List.cons_append, List.nil_append, List.cons.injEq] at heq
      exfalso
      apply hx
      rw [← heq.1]
      exact List.mem_cons_self ..
    | cons c' rest' =>
      simp only [List.cons_append, List.cons.injEq] at heq
      have hx2 : '|' ∉ rest := fun hc => hx (List.mem_cons_of_mem _ hc)
      have hx2' : '|' ∉ rest' := fun hc => hx' (List.mem_cons_of_mem _ hc)
      have := ih ys rest' ys' hx2 hx2' heq.2
      exact ⟨by rw [heq.1, this.1], this.2⟩

theorem critKey_inj (a b a' b' : String) (ha : noPipe a) (ha' : noPipe a')
    (heq : a ++ "|" ++ b = a' ++ "|" ++ b') : a = a' ∧ b = b' := by
  have hdata : (a ++ "|" ++ b).data = (a' ++ "|" ++ b').data := by
    rw [heq]
  simp only [String.data_append, List.append_assoc,
    List.singleton_append] at hdata
  have := pipe_split_inj a.data b.data a'.data b'.data ha ha' hdata
  constructor
  · apply String.ext
    exact this.1
  · apply String.ext
    exact this.2

theorem lookupCriterion_spec (criteria : List (String × CriterionData))
    (row : MeasurementData) (hwf : criteriaWF criteria)
    (hrow : noPipe row.criterion) :
    (lookupCriterion criteria row).1.name = row.criterion ∧
    (lookupCriterion criteria row).1.unit = row.unit ∧
    criteriaWF (lookupCriterion criteria row).2 := by
  cases hget : mapGet criteria (row.criterion ++ "|" ++ row.unit) with
  | some c =>
    have hmem := mapGet_eq_some_mem _ _ _ hget
    have hc := hwf _ hmem
    simp only at hc
    have hinj := critKey_inj c.name c.unit row.criterion row.unit hc.2 hrow
      hc.1.symm
    simp only [lookupCriterion, hget]
    exact ⟨hinj.1, hinj.2, hwf⟩
  | none =>
    simp only [lookupCriterion, hget]
    refine ⟨trivial, trivial, ?_⟩
    intro e he
    rcases mem_mapSet _ _ _ _ he with h | h
    · exact hwf e h
    · rw [h]
      exact ⟨rfl, hrow⟩

/-! ## Step lemmas for the per-row pass -/

theorem suiteResultOf_processRow_ne (st : CollateState)
    (row : MeasurementData) (e s : String)
    (hne : ¬(e = row.exe ∧ s = row.suite)) :
    suiteResultOf (processRow st row).byExeSuiteBench e s =
      suiteResultOf st.byExeSuiteBench e s := by
  simp only [suiteResultOf, processRow]
  by_cases hexe : e = row.exe
  · rw [hexe, mapGet_mapSet_same]
    have hsuite : s ≠ row.suite := by tauto
    simp only [Option.some_bind]
    rw [mapGet_mapSet_ne _ _ _ _ hsuite]
    cases hm : mapGet st.byExeSuiteBench row.exe with
    | none => simp [hm, mapGet]
    | some s0 => simp [hm]
  · rw [mapGet_mapSet_ne _ _ _ _ hexe]

theorem suiteResultOf_processRow_same (st : CollateState)
    (row : MeasurementData) :
    suiteResultOf (processRow st row).byExeSuiteBench row.exe row.suite =
      some (updateSuite
        ((suiteResultOf st.byExeSuiteBench row.exe row.suite).getD
          { benchmarks := [], criteria := [] })
        row (lookupCriterion st.criteria row).1
        (lookupRunSettings st.runSettings row).1) := by
  simp only [suiteResultOf, processRow]
  rw [mapGet_mapSet_same]
  simp only [Option.some_bind]
  rw [mapGet_mapSet_same]
  cases hm : mapGet st.byExeSuiteBench row.exe with
  | none => simp [hm, mapGet]
  | some s0 => simp [hm]

theorem updateSuite_benchmarks_ne (rb : ResultsByBenchmark)
    (row : MeasurementData) (crit : CriterionData) (rset : RunSettings)
    (b : String) (hb : b ≠ row.bench) :
    mapGet (updateSuite rb row crit rset).benchmarks b =
      mapGet rb.benchmarks b := by
  simp only [updateSuite]
  exact mapGet_mapSet_ne _ _ _ _ hb

theorem updateSuite_benchmarks_same (rb : ResultsByBenchmark)
    (row : MeasurementData) (crit : CriterionData) (rset : RunSettings) :
    ∃ pr0 : ProcessedResult,
      (mapGet rb.benchmarks row.bench = some pr0 ∨
        (mapGet rb.benchmarks row.bench = none ∧
         pr0 = { exe := row.exe, suite := row.suite, bench := row.bench,
                 measurements := [] })) ∧
      mapGet (updateSuite rb row crit rset).benchmarks row.bench =
        some { pr0 with
          measurements := (updateMeas row crit rset pr0.measurements).1 } := by
  simp only [updateSuite]
  cases hget : mapGet rb.benchmarks row.bench with
  | some pr =>
    refine ⟨pr, Or.inl rfl, ?_⟩
    simp only [hget, Option.getD_some]
    exact mapGet_mapSet_same _ _ _
  | none =>
    refine ⟨{ exe := row.exe, suite := row.suite, bench := row.bench,
              measurements := [] }, Or.inr ⟨rfl, rfl⟩, ?_⟩
    simp only [hget, Option.getD_none]
    exact mapGet_mapSet_same _ _ _

theorem benchResultOf_processRow_ne (st : CollateState)
    (row : MeasurementData) (e s b : String)
    (hne : ¬(e = row.exe ∧ s = row.suite ∧ b = row.bench)) :
    benchResultOf (processRow st row).byExeSuiteBench e s b =
      benchResultOf st.byExeSuiteBench e s b := by
  simp only [benchResultOf]
  by_cases hes : e = row.exe ∧ s = row.suite
  · have hbench : b ≠ row.bench := by tauto
    rw [hes.1, hes.2, suiteResultOf_processRow_same]
    simp only [Option.some_bind]
    rw [updateSuite_benchmarks_ne _ _ _ _ _ hbench]
    cases hm : suiteResultOf st.byExeSuiteBench row.exe row.suite with
    | none => simp [mapGet]
    | some rb0 => simp
  · rw [suiteResultOf_processRow_ne st row e s hes]

theorem benchResultOf_processRow_same (st : CollateState)
    (row : MeasurementData) :
    ∃ pr0 : ProcessedResult,
      (benchResultOf st.byExeSuiteBench row.exe row.suite row.bench
          = some pr0 ∨
        (benchResultOf st.byExeSuiteBench row.exe row.suite row.bench
            = none ∧
         pr0 = { exe := row.exe, suite := row.suite, bench := row.bench,
                 measurements := [] })) ∧
      benchResultOf (processRow st row).byExeSuiteBench row.exe row.suite
          row.bench =
        some { pr0 with
          measurements :=
            (updateMeas row (lookupCriterion st.criteria row).1
              (lookupRunSettings st.runSettings row).1
              pr0.measurements).1 } := by
  simp only [benchResultOf]
  rw [suiteResultOf_processRow_same]
  simp only [Option.some_bind]
  cases hm : suiteResultOf st.byExeSuiteBench row.exe row.suite with
  | none =>
    simp only [Option.getD_none]
    have h := updateSuite_benchmarks_same
      ({ benchmarks := [], criteria := [] } : ResultsByBenchmark) row
      (lookupCriterion st.criteria row).1
      (lookupRunSettings st.runSettings row).1
    rcases h with ⟨pr0, hpr0, hres⟩
    rcases hpr0 with h' | h'
    · simp [mapGet] at h'
    · exact ⟨pr0, Or.inr ⟨by simp, h'.2⟩, hres⟩
  | some rb0 =>
    simp only [Option.getD_some]
    have h := updateSuite_benchmarks_same rb0 row
      (lookupCriterion st.criteria row).1
      (lookupRunSettings st.runSettings row).1
    rcases h with ⟨pr0, hpr0, hres⟩
    rcases hpr0 with h' | h'
    · exact ⟨pr0, Or.inl (by simp [h']), hres⟩
    · exact ⟨pr0, Or.inr ⟨by simp [h'.1], h'.2⟩, hres⟩

theorem cellLookup_processRow (st : CollateState) (row : MeasurementData)
    (c : CellCoord) (hwf : criteriaWF st.criteria)
    (hrinv : 1 ≤ row.invocation) (hriter : 1 ≤ row.iteration)
    (hrpipe : noPipe row.criterion) (hcinv : 1 ≤ c.invocation)
    (hciter : 1 ≤ c.iteration) :
    cellLookup (processRow st row).byExeSuiteBench c =
    (if coordOf row = c then some row.value
     else cellLookup st.byExeSuiteBench c) := by
  have hname := (lookupCriterion_spec st.criteria row hwf hrpipe).1
  simp only [cellLookup]
  by_cases hesb : c.exe = row.exe ∧ c.suite = row.suite ∧ c.bench = row.bench
  · rw [hesb.1, hesb.2.1, hesb.2.2]
    obtain ⟨pr0, hpr0, hres⟩ := benchResultOf_processRow_same st row
    rw [hres]
    simp only [Option.some_bind]
    rw [seriesCellLookup_updateMeas row _ _ hname hrinv hriter
      pr0.measurements c hcinv hciter]
    have hcoord : (coordOf row = c) ↔
        (coordSeriesKey c = rowSeriesKey row ∧
         c.invocation = row.invocation ∧ c.iteration = row.iteration) := by
      constructor
      · intro h
        rw [← h]
        exact ⟨rfl, rfl, rfl⟩
      · intro ⟨hk, hi, hj⟩
        have hk' : c.envid = row.envid ∧ c.commitid = row.commitid ∧
            c.runid = row.runid ∧ c.trialid = row.trialid ∧
            c.criterion = row.criterion := by
          simpa [coordSeriesKey, rowSeriesKey, Prod.ext_iff, and_assoc]
            using hk
        cases c
        simp only [coordOf] at *
        simp_all
    by_cases hcond : coordSeriesKey c = rowSeriesKey row ∧
        c.invocation = row.invocation ∧ c.iteration = row.iteration
    · rw [if_pos hcond, if_pos (hcoord.mpr hcond)]
    · rw [if_neg hcond, if_neg (fun h => hcond (hcoord.mp h))]
      rcases hpr0 with h' | h'
      · rw [h']
        simp only [Option.some_bind]
      · rw [h'.1, h'.2]
        simp [seriesCellLookup, findSeries]
  · have hne : coordOf row ≠ c := by
      intro h
      rw [← h] at hesb
      exact hesb ⟨rfl, rfl, rfl⟩
    rw [if_neg hne, benchResultOf_processRow_ne st row c.exe c.suite c.bench
      hesb]

theorem exeExists_processRow (st : CollateState) (row : MeasurementData)
    (e : String) :
    (exeExists (processRow st row).byExeSuiteBench e = true) ↔
    (e = row.exe ∨ exeExists st.byExeSuiteBench e = true) := by
  simp only [exeExists, processRow]
  by_cases he : e = row.exe
  · rw [he, mapGet_mapSet_same]
    simp
  · rw [mapGet_mapSet_ne _ _ _ _ he]
    simp [he]

theorem suiteExists_processRow (st : CollateState) (row : MeasurementData)
    (e s : String) :
    (suiteExists (processRow st row).byExeSuiteBench e s = true) ↔
    ((e = row.exe ∧ s = row.suite) ∨
      suiteExists st.byExeSuiteBench e s = true) := by
  simp only [suiteExists]
  by_cases hes : e = row.exe ∧ s = row.suite
  · rw [hes.1, hes.2, suiteResultOf_processRow_same]
    simp [hes]
  · rw [suiteResultOf_processRow_ne st row e s hes]
    simp [hes]

theorem benchExists_processRow (st : CollateState) (row : MeasurementData)
    (e s b : String) :
    (benchExists (processRow st row).byExeSuiteBench e s b = true) ↔
    ((e = row.exe ∧ s = row.suite ∧ b = row.bench) ∨
      benchExists st.byExeSuiteBench e s b = true) := by
  simp only [benchExists]
  by_cases hesb : e = row.exe ∧ s = row.suite ∧ b = row.bench
  · obtain ⟨pr0, hpr0, hres⟩ := benchResultOf_processRow_same st row
    rw [hesb.1, hesb.2.1, hesb.2.2, hres]
    simp [hesb]
  · rw [benchResultOf_processRow_ne st row e s b hesb]
    simp [hesb]

theorem updateMeas_any (row : MeasurementData) (crit : CriterionData)
    (rset : RunSettings) (hcrit : crit.name = row.criterion)
    (k : Nat × String × Nat × Nat × String) :
    ∀ ms : List Measurements,
      (updateMeas row crit rset ms).1.any (fun m => seriesKey m = k) =
      (decide (k = rowSeriesKey row) ||
        ms.any (fun m => seriesKey m = k)) := by
  intro ms
  induction ms with
  | nil =>
    simp only [updateMeas, List.any_cons, List.any_nil,
      seriesKey_newSeries row crit rset hcrit]
    by_cases hk : k = rowSeriesKey row
    · simp [hk]
    · have hk' : ¬rowSeriesKey row = k := fun h => hk h.symm
      simp [hk, hk']
  | cons m ms ih =>
    by_cases hm : measMatches m row
    · have hmkey : seriesKey m = rowSeriesKey row :=
        (measMatches_iff m row).mp hm
      simp only [updateMeas, if_pos hm, List.any_cons]
      have : seriesKey { m with values := (setCell m.values row.invocation row.iteration row.value) } = seriesKey m := rfl
      rw [this]
      by_cases hk : k = rowSeriesKey row
      · simp [hk, hmkey]
      · simp [hk]
    · simp only [updateMeas, if_neg hm, List.any_cons, ih]
      by_cases hk : k = rowSeriesKey row
      · simp [hk]
      · simp [hk]

theorem seriesExists_processRow (st : CollateState) (row : MeasurementData)
    (e s b : String) (k : Nat × String × Nat × Nat × String)
    (hwf : criteriaWF st.criteria) (hrpipe : noPipe row.criterion) :
    (seriesExists (processRow st row).byExeSuiteBench e s b k = true) ↔
    ((e = row.exe ∧ s = row.suite ∧ b = row.bench ∧
        k = rowSeriesKey row) ∨
      seriesExists st.byExeSuiteBench e s b k = true) := by
  have hname := (lookupCriterion_spec st.criteria row hwf hrpipe).1
  simp only [seriesExists]
  by_cases hesb : e = row.exe ∧ s = row.suite ∧ b = row.bench
  · obtain ⟨pr0, hpr0, hres⟩ := benchResultOf_processRow_same st row
    rw [hesb.1, hesb.2.1, hesb.2.2, hres]
    simp only [Option.map_some', Option.getD_some]
    rw [updateMeas_any row (lookupCriterion st.criteria row).1
      (lookupRunSettings st.runSettings row).1 hname k pr0.measurements]
    rcases hpr0 with h' | h'
    · rw [h']
      simp only [Option.map_some', Option.getD_some]
      by_cases hk : k = rowSeriesKey row
      · simp [hk, hesb]
      · simp [hk, hesb]
    · rw [h'.1]
      have hms : pr0.measurements = [] := by rw [h'.2]
      rw [hms]
      simp only [List.any_nil, Option.map_none', Option.getD_none,
        Bool.or_false]
      by_cases hk : k = rowSeriesKey row
      · simp [hk, hesb]
      · simp [hk, hesb]
  · rw [benchResultOf_processRow_ne st row e s b hesb]
    constructor
    · intro h
      right
      exact h
    · intro h
      rcases h with h | h
      · exact absurd ⟨h.1, h.2.1, h.2.2.1⟩ hesb
      · exact h

/-! ## Criteria record: discovery order, and the structural invariant -/

theorem mem_keys_mapSet {β : Type} (m : List (String × β)) (k : String)
    (v : β) : k ∈ (mapSet m k v).map Prod.fst := by
  induction m with
  | nil => simp [mapSet]
  | cons p rest ih =>
    by_cases hp : p.1 = k
    · simp [mapSet, hp]
    · simp only [mapSet, if_neg hp, List.map_cons, List.mem_cons]
      right
      exact ih

theorem keys_mapSet_superset {β : Type} (m : List (String × β)) (k : String)
    (v : β) (x : String) (hx : x ∈ m.map Prod.fst) :
    x ∈ (mapSet m k v).map Prod.fst := by
  induction m with
  | nil => simp at hx
  | cons p rest ih =>
    simp only [List.map_cons, List.mem_cons] at hx
    by_cases hp : p.1 = k
    · simp only [mapSet, if_pos hp, List.map_cons, List.mem_cons]
      rcases hx with hx | hx
      · left
        rw [hx, hp]
      · right
        exact hx
    · simp only [mapSet, if_neg hp, List.map_cons, List.mem_cons]
      rcases hx with hx | hx
      · left
        exact hx
      · right
        exact ih hx

theorem nodup_keys_mapSet {β : Type} (m : List (String × β)) (k : String)
    (v : β) (hnd : (m.map Prod.fst).Nodup) :
    ((mapSet m k v).map Prod.fst).Nodup := by
  by_cases h : k ∈ m.map Prod.fst
  · rw [mapSet_keys_present _ _ _ h]
    exact hnd
  · rw [mapSet_keys_absent _ _ _ h]
    exact List.Nodup.append hnd (List.nodup_singleton _)
      (by simpa [List.disjoint_singleton] using h)

theorem updateMeas_mem (row : MeasurementData) (crit : CriterionData)
    (rset : RunSettings) :
    ∀ (ms : List Measurements) (x : Measurements),
      x ∈ (updateMeas row crit rset ms).1 →
      (∃ y ∈ ms, x.criterion.name = y.criterion.name) ∨
      (x.criterion.name = crit.name ∧
        (updateMeas row crit rset ms).2 = true) := by
  intro ms
  induction ms with
  | nil =>
    intro x hx
    simp only [updateMeas, List.mem_singleton] at hx
    right
    rw [hx]
    exact ⟨rfl, rfl⟩
  | cons m ms ih =>
    intro x hx
    by_cases hm : measMatches m row
    · simp only [updateMeas, if_pos hm, List.mem_cons] at hx
      rcases hx with hx | hx
      · left
        exact ⟨m, List.mem_cons_self .., by rw [hx]⟩
      · left
        exact ⟨x, List.mem_cons_of_mem _ hx, rfl⟩
    · simp only [updateMeas, if_neg hm, List.mem_cons] at hx
      rcases hx with hx | hx
      · left
        exact ⟨m, List.mem_cons_self .., by rw [hx]⟩
      · rcases ih x hx with ⟨y, hy, hxy⟩ | ⟨hn, hc⟩
        · left
          exact ⟨y, List.mem_cons_of_mem _ hy, hxy⟩
        · right
          refine ⟨hn, ?_⟩
          simpa [updateMeas, if_neg hm] using hc

theorem updateSuite_inv (rb : ResultsByBenchmark) (row : MeasurementData)
    (crit : CriterionData) (rset : RunSettings)
    (hname : crit.name = row.criterion)
    (hnd : (rb.benchmarks.map Prod.fst).Nodup)
    (hbench : ∀ be ∈ rb.benchmarks, ∀ m ∈ be.2.measurements,
      m.criterion.name ∈ rb.criteria.map Prod.fst) :
    ((updateSuite rb row crit rset).benchmarks.map Prod.fst).Nodup ∧
    ∀ be ∈ (updateSuite rb row crit rset).benchmarks,
      ∀ m ∈ be.2.measurements,
        m.criterion.name ∈
          (updateSuite rb row crit rset).criteria.map Prod.fst := by
  have hsup : ∀ x, x ∈ rb.criteria.map Prod.fst →
      x ∈ (updateSuite rb row crit rset).criteria.map Prod.fst := by
    intro x hx
    simp only [updateSuite]
    split
    · exact keys_mapSet_superset _ _ _ _ hx
    · exact hx
  constructor
  · simp only [updateSuite]
    exact nodup_keys_mapSet _ _ _ hnd
  · intro be hbe m hm
    simp only [updateSuite] at hbe
    rcases mem_mapSet _ _ _ _ hbe with hold | hnew
    · exact hsup _ (hbench be hold m hm)
    · rw [hnew] at hm
      simp only at hm
      rcases updateMeas_mem row crit rset _ m hm with ⟨y, hy, hxy⟩ | ⟨hn, hc⟩
      · cases hpr : mapGet rb.benchmarks row.bench with
        | some pr1 =>
          rw [hpr] at hy
          simp only [Option.getD_some] at hy
          have hmem := mapGet_eq_some_mem _ _ _ hpr
          rw [hxy]
          exact hsup _ (hbench (row.bench, pr1) hmem y hy)
        | none =>
          rw [hpr] at hy
          simp at hy
      · rw [hn, hname]
        simp only [updateSuite, hc, if_pos rfl]
        rw [← hname]
        exact mem_keys_mapSet _ _ _

theorem collateInv_processRow (st : CollateState) (row : MeasurementData)
    (hinv : collateInv st) (hrpipe : noPipe row.criterion) :
    collateInv (processRow st row) := by
  obtain ⟨hcwf, hnd1, hlevel⟩ := hinv
  obtain ⟨hname, hunit, hcwf'⟩ :=
    lookupCriterion_spec st.criteria row hcwf hrpipe
  refine ⟨hcwf', ?_, ?_⟩
  · exact nodup_keys_mapSet _ _ _ hnd1
  · intro p hp
    rcases mem_mapSet _ _ _ _ hp with hp' | hp'
    · exact hlevel p hp'
    · rw [hp']
      cases hm : mapGet st.byExeSuiteBench row.exe with
      | some s0 =>
        have hmem := mapGet_eq_some_mem _ _ _ hm
        obtain ⟨nds0, hq0⟩ := hlevel (row.exe, s0) hmem
        simp only [hm, Option.getD_some]
        refine ⟨nodup_keys_mapSet _ _ _ nds0, ?_⟩
        intro q hq
        rcases mem_mapSet _ _ _ _ hq with hq' | hq'
        · exact hq0 q hq'
        · rw [hq']
          cases hrb : mapGet s0 row.suite with
          | some rb0 =>
            have hrbmem := mapGet_eq_some_mem _ _ _ hrb
            obtain ⟨ndb, hbench⟩ := hq0 (row.suite, rb0) hrbmem
            simp only [hrb, Option.getD_some]
            exact updateSuite_inv rb0 row _ _ hname ndb hbench
          | none =>
            simp only [hrb, Option.getD_none]
            exact updateSuite_inv { benchmarks := [], criteria := [] } row
              _ _ hname (by simp) (by simp)
      | none =>
        simp only [hm, Option.getD_none]
        constructor
        · simp [mapSet]
        · intro q hq
          simp only [mapSet, List.mem_singleton] at hq
          rw [hq]
          exact updateSuite_inv { benchmarks := [], criteria := [] } row
            _ _ hname (by simp) (by simp)

theorem criteriaNamesOf_processRow_ne (st : CollateState)
    (row : MeasurementData) (e s : String)
    (hne : ¬(e = row.exe ∧ s = row.suite)) :
    criteriaNamesOf (processRow st row).byExeSuiteBench e s =
      criteriaNamesOf st.byExeSuiteBench e s := by
  simp only [criteriaNamesOf]
  rw [suiteResultOf_processRow_ne st row e s hne]

theorem criteriaNamesOf_processRow_same (st : CollateState)
    (row : MeasurementData) (hwf : criteriaWF st.criteria)
    (hrpipe : noPipe row.criterion)
    (hinv : ∀ rb, suiteResultOf st.byExeSuiteBench row.exe row.suite =
        some rb →
      ∀ be ∈ rb.benchmarks, ∀ m ∈ be.2.measurements,
        m.criterion.name ∈ rb.criteria.map Prod.fst) :
    criteriaNamesOf (processRow st row).byExeSuiteBench row.exe row.suite =
    some
      (if row.criterion ∈
          ((criteriaNamesOf st.byExeSuiteBench row.exe row.suite).getD [])
       then (criteriaNamesOf st.byExeSuiteBench row.exe row.suite).getD []
       else ((criteriaNamesOf st.byExeSuiteBench row.exe
          row.suite).getD []) ++ [row.criterion]) := by
  have hname := (lookupCriterion_spec st.criteria row hwf hrpipe).1
  simp only [criteriaNamesOf]
  rw [suiteResultOf_processRow_same]
  simp only [Option.map_some']
  cases hm : suiteResultOf st.byExeSuiteBench row.exe row.suite with
  | some rb =>
    simp only [Option.getD_some, Option.map_some']
    simp only [updateSuite]
    cases hcreated : (updateMeas row (lookupCriterion st.criteria row).1
        (lookupRunSettings st.runSettings row).1
        ((mapGet rb.benchmarks row.bench).getD
          { exe := row.exe, suite := row.suite, bench := row.bench,
            measurements := [] }).measurements).2 with
    | true =>
      simp only [hcreated, if_true, hname]
      by_cases hmemk : row.criterion ∈ rb.criteria.map Prod.fst
      · rw [if_pos hmemk, mapSet_keys_present _ _ _ hmemk]
      · rw [if_neg hmemk, mapSet_keys_absent _ _ _ hmemk]
    | false =>
      simp only [hcreated, Bool.false_eq_true, if_neg (by simp : ¬False)]
      have hnotall := (updateMeas_created row
        (lookupCriterion st.criteria row).1
        (lookupRunSettings st.runSettings row).1 hname
        ((mapGet rb.benchmarks row.bench).getD
          { exe := row.exe, suite := row.suite, bench := row.bench,
            measurements := [] }).measurements).1
      rw [hcreated] at hnotall
      have hex : ∃ m ∈ ((mapGet rb.benchmarks row.bench).getD
          { exe := row.exe, suite := row.suite, bench := row.bench,
            measurements := [] }).measurements,
          seriesKey m = rowSeriesKey row := by
        by_contra hc
        push_neg at hc
        have := hnotall.mpr (fun m hm2 => hc m hm2)
        simp at this
      obtain ⟨m0, hm0, hkey0⟩ := hex
      cases hpr : mapGet rb.benchmarks row.bench with
      | none =>
        rw [hpr] at hm0
        simp at hm0
      | some pr1 =>
        rw [hpr] at hm0
        simp only [Option.getD_some] at hm0
        have hm0name : m0.criterion.name = row.criterion := by
          have : (seriesKey m0).2.2.2.2 = (rowSeriesKey row).2.2.2.2 := by
            rw [hkey0]
          simpa [seriesKey, rowSeriesKey] using this
        have hmemk : row.criterion ∈ rb.criteria.map Prod.fst := by
          rw [← hm0name]
          exact hinv rb hm (row.bench, pr1) (mapGet_eq_some_mem _ _ _ hpr)
            m0 hm0
        rw [if_pos hmemk]
  | none =>
    simp only [Option.getD_none, Option.map_none']
    simp [updateSuite, mapGet, updateMeas, mapSet, hname]

/-! ## Fold-level characterizations of the collation pass -/

theorem collateInv_initial : collateInv initialCollateState := by
  refine ⟨?_, ?_, ?_⟩
  · intro e he
    simp [initialCollateState] at he
  · simp [initialCollateState]
  · intro p hp
    simp [initialCollateState] at hp

theorem collateInv_fold (data : List MeasurementData) :
    ∀ st : CollateState, collateInv st →
      (∀ row ∈ data, noPipe row.criterion) →
      collateInv (data.foldl processRow st) := by
  induction data with
  | nil => intro st h _; exact h
  | cons row rest ih =>
    intro st h hdata
    exact ih (processRow st row)
      (collateInv_processRow st row h (hdata row (List.mem_cons_self ..)))
      (fun r hr => hdata r (List.mem_cons_of_mem _ hr))

theorem collateInv_suite (st : CollateState) (hinv : collateInv st)
    (e s : String) (rb : ResultsByBenchmark)
    (h : suiteResultOf st.byExeSuiteBench e s = some rb) :
    (rb.benchmarks.map Prod.fst).Nodup ∧
    ∀ be ∈ rb.benchmarks, ∀ m ∈ be.2.measurements,
      m.criterion.name ∈ rb.criteria.map Prod.fst := by
  obtain ⟨_, _, hlevel⟩ := hinv
  simp only [suiteResultOf] at h
  cases hm : mapGet st.byExeSuiteBench e with
  | none => rw [hm] at h; simp at h
  | some suites =>
    rw [hm] at h
    simp only [Option.some_bind] at h
    have hmem := mapGet_eq_some_mem _ _ _ hm
    have hmem2 := mapGet_eq_some_mem _ _ _ h
    exact (hlevel (e, suites) hmem).2 (s, rb) hmem2

theorem cellLookup_fold (data : List MeasurementData)
    (hdata : ∀ row ∈ data, rowWF row) (c : CellCoord) (hc : coordWF c) :
    cellLookup (data.foldl processRow initialCollateState).byExeSuiteBench c
      = lastMatch data c := by
  induction data using List.reverseRecOn with
  | nil => rfl
  | append_singleton l row ih =>
    have hl : ∀ r ∈ l, rowWF r :=
      fun r hr => hdata r (List.mem_append.mpr (Or.inl hr))
    have hrow : rowWF row :=
      hdata row (List.mem_append.mpr (Or.inr (List.mem_singleton.mpr rfl)))
    have hinv := collateInv_fold l initialCollateState collateInv_initial
      (fun r hr => (hl r hr).2.2)
    rw [List.foldl_append]
    simp only [List.foldl_cons, List.foldl_nil]
    rw [cellLookup_processRow _ row c hinv.1 hrow.1 hrow.2.1 hrow.2.2
      hc.1 hc.2]
    have hlast : lastMatch (l ++ [row]) c =
        (if coordOf row = c then some row.value else lastMatch l c) := by
      simp [lastMatch, List.foldl_append]
    rw [hlast, ih hl]

theorem exeExists_fold (data : List MeasurementData) (e : String) :
    (exeExists
      (data.foldl processRow initialCollateState).byExeSuiteBench e = true)
    ↔ ∃ row ∈ data, row.exe = e := by
  induction data using List.reverseRecOn with
  | nil =>
    simp [exeExists, initialCollateState, mapGet]
  | append_singleton l row ih =>
    rw [List.foldl_append]
    simp only [List.foldl_cons, List.foldl_nil]
    rw [exeExists_processRow]
    constructor
    · intro h
      rcases h with h | h
      · exact ⟨row, List.mem_append.mpr (Or.inr (by simp)), h.symm⟩
      · obtain ⟨r, hr, hre⟩ := ih.mp h
        exact ⟨r, List.mem_append.mpr (Or.inl hr), hre⟩
    · intro ⟨r, hr, hre⟩
      rcases List.mem_append.mp hr with hr | hr
      · exact Or.inr (ih.mpr ⟨r, hr, hre⟩)
      · left
        have : r = row := by simpa using hr
        rw [← this, hre]

theorem suiteExists_fold (data : List MeasurementData) (e s : String) :
    (suiteExists
      (data.foldl processRow initialCollateState).byExeSuiteBench e s = true)
    ↔ ∃ row ∈ data, row.exe = e ∧ row.suite = s := by
  induction data using List.reverseRecOn with
  | nil =>
    simp [suiteExists, suiteResultOf, initialCollateState, mapGet]
  | append_singleton l row ih =>
    rw [List.foldl_append]
    simp only [List.foldl_cons, List.foldl_nil]
    rw [suiteExists_processRow]
    constructor
    · intro h
      rcases h with h | h
      · exact ⟨row, List.mem_append.mpr (Or.inr (by simp)),
          h.1.symm, h.2.symm⟩
      · obtain ⟨r, hr, hre⟩ := ih.mp h
        exact ⟨r, List.mem_append.mpr (Or.inl hr), hre⟩
    · intro ⟨r, hr, hre⟩
      rcases List.mem_append.mp hr with hr | hr
      · exact Or.inr (ih.mpr ⟨r, hr, hre⟩)
      · left
        have : r = row := by simpa using hr
        rw [← this]
        exact ⟨hre.1.symm, hre.2.symm⟩

theorem benchExists_fold (data : List MeasurementData) (e s b : String) :
    (benchExists
      (data.foldl processRow initialCollateState).byExeSuiteBench e s b
      = true)
    ↔ ∃ row ∈ data, row.exe = e ∧ row.suite = s ∧ row.bench = b := by
  induction data using List.reverseRecOn with
  | nil =>
    simp [benchExists, benchResultOf, suiteResultOf, initialCollateState,
      mapGet]
  | append_singleton l row ih =>
    rw [List.foldl_append]
    simp only [List.foldl_cons, List.foldl_nil]
    rw [benchExists_processRow]
    constructor
    · intro h
      rcases h with h | h
      · exact ⟨row, List.mem_append.mpr (Or.inr (by simp)),
          h.1.symm, h.2.1.symm, h.2.2.symm⟩
      · obtain ⟨r, hr, hre⟩ := ih.mp h
        exact ⟨r, List.mem_append.mpr (Or.inl hr), hre⟩
    · intro ⟨r, hr, hre⟩
      rcases List.mem_append.mp hr with hr | hr
      · exact Or.inr (ih.mpr ⟨r, hr, hre⟩)
      · left
        have : r = row := by simpa using hr
        rw [← this]
        exact ⟨hre.1.symm, hre.2.1.symm, hre.2.2.symm⟩

theorem seriesExists_fold (data : List MeasurementData)
    (hdata : ∀ row ∈ data, noPipe row.criterion) (e s b : String)
    (k : Nat × String × Nat × Nat × String) :
    (seriesExists
      (data.foldl processRow initialCollateState).byExeSuiteBench e s b k
      = true)
    ↔ ∃ row ∈ data, row.exe = e ∧ row.suite = s ∧ row.bench = b ∧
        rowSeriesKey row = k := by
  induction data using List.reverseRecOn with
  | nil =>
    simp [seriesExists, benchResultOf, suiteResultOf, initialCollateState,
      mapGet]
  | append_singleton l row ih =>
    have hl : ∀ r ∈ l, noPipe r.criterion :=
      fun r hr => hdata r (List.mem_append.mpr (Or.inl hr))
    have hrow : noPipe row.criterion :=
      hdata row (List.mem_append.mpr (Or.inr (List.mem_singleton.mpr rfl)))
    have hinv := collateInv_fold l initialCollateState collateInv_initial hl
    rw [List.foldl_append]
    simp only [List.foldl_cons, List.foldl_nil]
    rw [seriesExists_processRow _ row e s b k hinv.1 hrow]
    constructor
    · intro h
      rcases h with h | h
      · exact ⟨row, List.mem_append.mpr (Or.inr (by simp)),
          h.1.symm, h.2.1.symm, h.2.2.1.symm, h.2.2.2.symm⟩
      · obtain ⟨r, hr, hre⟩ := (ih hl).mp h
        exact ⟨r, List.mem_append.mpr (Or.inl hr), hre⟩
    · intro ⟨r, hr, hre⟩
      rcases List.mem_append.mp hr with hr | hr
      · exact Or.inr ((ih hl).mpr ⟨r, hr, hre⟩)
      · left
        have : r = row := by simpa using hr
        rw [← this]
        exact ⟨hre.1.symm, hre.2.1.symm, hre.2.2.1.symm, hre.2.2.2.symm⟩

theorem suiteCritNames_append (l : List MeasurementData)
    (row : MeasurementData) (e s : String) :
    suiteCritNames (l ++ [row]) e s =
    suiteCritNames l e s ++
      (if row.exe = e ∧ row.suite = s then [row.criterion] else []) := by
  simp only [suiteCritNames, List.filterMap_append]
  congr 1
  by_cases h : row.exe = e ∧ row.suite = s
  · simp [h]
  · simp [h]

theorem dedupFirst_append (l : List String) (n : String) :
    dedupFirst (l ++ [n]) =
    (if n ∈ dedupFirst l then dedupFirst l else dedupFirst l ++ [n]) := by
  simp [dedupFirst, List.foldl_append]

theorem suiteCritNames_nil_of_none (l : List MeasurementData) (e s : String)
    (h : ¬∃ row ∈ l, row.exe = e ∧ row.suite = s) :
    suiteCritNames l e s = [] := by
  push_neg at h
  simp only [suiteCritNames, List.filterMap_eq_nil_iff]
  intro row hrow
  rw [if_neg (fun hc => h row hrow hc.1 hc.2)]

theorem criteriaNamesOf_fold (data : List MeasurementData)
    (hdata : ∀ row ∈ data, noPipe row.criterion) (e s : String) :
    criteriaNamesOf
      (data.foldl processRow initialCollateState).byExeSuiteBench e s =
    (if ∃ row ∈ data, row.exe = e ∧ row.suite = s
     then some (dedupFirst (suiteCritNames data e s)) else none) := by
  induction data using List.reverseRecOn with
  | nil =>
    simp [criteriaNamesOf, suiteResultOf, initialCollateState, mapGet]
  | append_singleton l row ih =>
    have hl : ∀ r ∈ l, noPipe r.criterion :=
      fun r hr => hdata r (List.mem_append.mpr (Or.inl hr))
    have hrow : noPipe row.criterion :=
      hdata row (List.mem_append.mpr (Or.inr (List.mem_singleton.mpr rfl)))
    have hinv := collateInv_fold l initialCollateState collateInv_initial hl
    have ihl := ih hl
    rw [List.foldl_append]
    simp only [List.foldl_cons, List.foldl_nil]
    by_cases hes : e = row.exe ∧ s = row.suite
    · rw [hes.1, hes.2]
      rw [criteriaNamesOf_processRow_same _ row hinv.1 hrow
        (fun rb hrb => (collateInv_suite _ hinv row.exe row.suite rb hrb).2)]
      rw [hes.1, hes.2] at ihl
      have hexnew : ∃ r ∈ l ++ [row], r.exe = row.exe ∧
          r.suite = row.suite :=
        ⟨row, List.mem_append.mpr (Or.inr (by simp)), rfl, rfl⟩
      rw [if_pos hexnew]
      have hnames_app := suiteCritNames_append l row row.exe row.suite
      rw [if_pos ⟨rfl, rfl⟩] at hnames_app
      by_cases hex : ∃ r ∈ l, r.exe = row.exe ∧ r.suite = row.suite
      · rw [if_pos hex] at ihl
        rw [ihl]
        simp only [Option.getD_some]
        rw [hnames_app, dedupFirst_append]
      · rw [if_neg hex] at ihl
        rw [ihl]
        simp only [Option.getD_none]
        rw [hnames_app, suiteCritNames_nil_of_none l row.exe row.suite hex]
        simp [dedupFirst]
    · rw [criteriaNamesOf_processRow_ne _ row e s hes, ihl]
      have hrowne : ¬(row.exe = e ∧ row.suite = s) := by
        intro hc
        exact hes ⟨hc.1.symm, hc.2.symm⟩
      have hnames_app := suiteCritNames_append l row e s
      rw [if_neg hrowne, List.append_nil] at hnames_app
      rw [hnames_app]
      have hiff : (∃ r ∈ l ++ [row], r.exe = e ∧ r.suite = s) ↔
          (∃ r ∈ l, r.exe = e ∧ r.suite = s) := by
        constructor
        · intro ⟨r, hr, hre⟩
          rcases List.mem_append.mp hr with hr | hr
          · exact ⟨r, hr, hre⟩
          · exfalso
            have : r = row := by simpa using hr
            rw [this] at hre
            exact hrowne hre
        · intro ⟨r, hr, hre⟩
          exact ⟨r, List.mem_append.mpr (Or.inl hr), hre⟩
      by_cases hex : ∃ r ∈ l, r.exe = e ∧ r.suite = s
      · rw [if_pos hex, if_pos (hiff.mpr hex)]
      · rw [if_neg hex, if_neg (fun hc => hex (hiff.mp hc))]

/-! ## Last-write-wins is permutation invariant on distinct coordinates -/

theorem lastMatch_none_iff (l : List MeasurementData) (c : CellCoord) :
    lastMatch l c = none ↔ ∀ row ∈ l, coordOf row ≠ c := by
  induction l using List.reverseRecOn with
  | nil => simp [lastMatch]
  | append_singleton l row ih =>
    have happ : lastMatch (l ++ [row]) c =
        (if coordOf row = c then some row.value else lastMatch l c) := by
      simp [lastMatch, List.foldl_append]
    rw [happ]
    by_cases h : coordOf row = c
    · simp only [if_pos h]
      constructor
      · intro hc
        exact absurd hc (by simp)
      · intro hc
        exact absurd h (hc row (List.mem_append.mpr (Or.inr (by simp))))
    · simp only [if_neg h]
      rw [ih]
      constructor
      · intro hc r hr
        rcases List.mem_append.mp hr with hr | hr
        · exact hc r hr
        · have : r = row := by simpa using hr
          rw [this]
          exact h
      · intro hc r hr
        exact hc r (List.mem_append.mpr (Or.inl hr))

theorem lastMatch_some_iff (l : List MeasurementData) (c : CellCoord)
    (hdist : (l.map coordOf).Nodup) (v : Int) :
    lastMatch l c = some v ↔
      ∃ row ∈ l, coordOf row = c ∧ row.value = v := by
  induction l using List.reverseRecOn with
  | nil => simp [lastMatch]
  | append_singleton l row ih =>
    have hmapped : ((l.map coordOf) ++ [coordOf row]).Nodup := by
      have := hdist
      rw [List.map_append] at this
      simpa using this
    have hsplit := List.nodup_append.mp hmapped
    have hdl : (l.map coordOf).Nodup := hsplit.1
    have hfresh : ∀ r ∈ l, coordOf r ≠ coordOf row := by
      intro r hr hc
      exact hsplit.2.2 (List.mem_map.mpr ⟨r, hr, rfl⟩) (by simp [hc])
    have happ : lastMatch (l ++ [row]) c =
        (if coordOf row = c then some row.value else lastMatch l c) := by
      simp [lastMatch, List.foldl_append]
    rw [happ]
    by_cases h : coordOf row = c
    · simp only [if_pos h]
      constructor
      · intro hc
        refine ⟨row, List.mem_append.mpr (Or.inr (by simp)), h, ?_⟩
        simpa using hc
      · intro ⟨r, hr, hrc, hrv⟩
        rcases List.mem_append.mp hr with hr | hr
        · exfalso
          exact hfresh r hr (by rw [hrc, ← h])
        · have : r = row := by simpa using hr
          rw [this] at hrv
          rw [hrv]
    · simp only [if_neg h]
      rw [ih hdl]
      constructor
      · intro ⟨r, hr, hrc⟩
        exact ⟨r, List.mem_append.mpr (Or.inl hr), hrc⟩
      · intro ⟨r, hr, hrc, hrv⟩
        rcases List.mem_append.mp hr with hr | hr
        · exact ⟨r, hr, hrc, hrv⟩
        · exfalso
          have : r = row := by simpa using hr
          rw [this] at hrc
          exact h hrc

theorem lastMatch_perm (l₁ l₂ : List MeasurementData) (hperm : l₁.Perm l₂)
    (hdist : (l₁.map coordOf).Nodup) (c : CellCoord) :
    lastMatch l₁ c = lastMatch l₂ c := by
  have hdist₂ : (l₂.map coordOf).Nodup :=
    ((hperm.map coordOf).nodup_iff).mp hdist
  cases hl : lastMatch l₁ c with
  | some v =>
    obtain ⟨r, hr, hrc, hrv⟩ := (lastMatch_some_iff l₁ c hdist v).mp hl
    exact ((lastMatch_some_iff l₂ c hdist₂ v).mpr
      ⟨r, hperm.mem_iff.mp hr, hrc, hrv⟩).symm
  | none =>
    have h := (lastMatch_none_iff l₁ c).mp hl
    exact ((lastMatch_none_iff l₂ c).mpr
      (fun r hr => h r (hperm.mem_iff.mpr hr))).symm

/-! ## The sorting pass preserves every leaf observation -/

theorem mapGet_map_sortExeEntry
    (m : List (String × List (String × ResultsByBenchmark))) (k : String) :
    mapGet (m.map sortExeEntry) k =
    (mapGet m k).map (fun suites => (sortByKey suites).map sortSuiteEntry) := by
  induction m with
  | nil => simp [mapGet]
  | cons p rest ih =>
    by_cases hp : p.1 = k
    · simp [mapGet, sortExeEntry, hp]
    · simp [mapGet, sortExeEntry, hp, ih]

theorem mapGet_map_sortSuiteEntry
    (m : List (String × ResultsByBenchmark)) (k : String) :
    mapGet (m.map sortSuiteEntry) k =
    (mapGet m k).map
      (fun rb => ({ benchmarks := sortByKey rb.benchmarks,
                    criteria := rb.criteria } : ResultsByBenchmark)) := by
  induction m with
  | nil => simp [mapGet]
  | cons p rest ih =>
    by_cases hp : p.1 = k
    · simp [mapGet, sortSuiteEntry, hp]
    · simp [mapGet, sortSuiteEntry, hp, ih]

theorem suiteResultOf_sort (r : ResultsByExeSuiteBenchmark)
    (hnd1 : (r.map Prod.fst).Nodup)
    (hnd2 : ∀ p ∈ r, (p.2.map Prod.fst).Nodup) (e s : String) :
    suiteResultOf (sortResultsAlphabetically r) e s =
    (suiteResultOf r e s).map
      (fun rb => ({ benchmarks := sortByKey rb.benchmarks,
                    criteria := rb.criteria } : ResultsByBenchmark)) := by
  simp only [suiteResultOf, sortResultsAlphabetically]
  rw [mapGet_map_sortExeEntry, mapGet_sortByKey r hnd1]
  cases hm : mapGet r e with
  | none => simp
  | some suites =>
    simp only [Option.map_some', Option.some_bind]
    rw [mapGet_map_sortSuiteEntry, mapGet_sortByKey suites
      (hnd2 (e, suites) (mapGet_eq_some_mem _ _ _ hm)) s]

theorem benchResultOf_sort (r : ResultsByExeSuiteBenchmark)
    (hnd1 : (r.map Prod.fst).Nodup)
    (hnd2 : ∀ p ∈ r, (p.2.map Prod.fst).Nodup)
    (hnd3 : ∀ p ∈ r, ∀ q ∈ p.2, (q.2.benchmarks.map Prod.fst).Nodup)
    (e s b : String) :
    benchResultOf (sortResultsAlphabetically r) e s b =
    benchResultOf r e s b := by
  simp only [benchResultOf]
  rw [suiteResultOf_sort r hnd1 hnd2 e s]
  cases hm : suiteResultOf r e s with
  | none => simp
  | some rb =>
    simp only [Option.map_some', Option.some_bind]
    simp only [suiteResultOf] at hm
    cases hms : mapGet r e with
    | none => rw [hms] at hm; simp at hm
    | some suites =>
      rw [hms] at hm
      simp only [Option.some_bind] at hm
      exact mapGet_sortByKey rb.benchmarks
        (hnd3 (e, suites) (mapGet_eq_some_mem _ _ _ hms) (s, rb)
          (mapGet_eq_some_mem _ _ _ hm)) b

theorem exeExists_sort (r : ResultsByExeSuiteBenchmark)
    (hnd1 : (r.map Prod.fst).Nodup) (e : String) :
    exeExists (sortResultsAlphabetically r) e = exeExists r e := by
  simp only [exeExists, sortResultsAlphabetically]
  rw [mapGet_map_sortExeEntry, mapGet_sortByKey r hnd1]
  cases mapGet r e <;> rfl

theorem suiteExists_sort (r : ResultsByExeSuiteBenchmark)
    (hnd1 : (r.map Prod.fst).Nodup)
    (hnd2 : ∀ p ∈ r, (p.2.map Prod.fst).Nodup) (e s : String) :
    suiteExists (sortResultsAlphabetically r) e s = suiteExists r e s := by
  simp only [suiteExists]
  rw [suiteResultOf_sort r hnd1 hnd2 e s]
  cases suiteResultOf r e s <;> rfl

theorem benchExists_sort (r : ResultsByExeSuiteBenchmark)
    (hnd1 : (r.map Prod.fst).Nodup)
    (hnd2 : ∀ p ∈ r, (p.2.map Prod.fst).Nodup)
    (hnd3 : ∀ p ∈ r, ∀ q ∈ p.2, (q.2.benchmarks.map Prod.fst).Nodup)
    (e s b : String) :
    benchExists (sortResultsAlphabetically r) e s b =
    benchExists r e s b := by
  simp only [benchExists]
  rw [benchResultOf_sort r hnd1 hnd2 hnd3 e s b]

theorem seriesExists_sort (r : ResultsByExeSuiteBenchmark)
    (hnd1 : (r.map Prod.fst).Nodup)
    (hnd2 : ∀ p ∈ r, (p.2.map Prod.fst).Nodup)
    (hnd3 : ∀ p ∈ r, ∀ q ∈ p.2, (q.2.benchmarks.map Prod.fst).Nodup)
    (e s b : String) (k : Nat × String × Nat × Nat × String) :
    seriesExists (sortResultsAlphabetically r) e s b k =
    seriesExists r e s b k := by
  simp only [seriesExists]
  rw [benchResultOf_sort r hnd1 hnd2 hnd3 e s b]

theorem cellLookup_sort (r : ResultsByExeSuiteBenchmark)
    (hnd1 : (r.map Prod.fst).Nodup)
    (hnd2 : ∀ p ∈ r, (p.2.map Prod.fst).Nodup)
    (hnd3 : ∀ p ∈ r, ∀ q ∈ p.2, (q.2.benchmarks.map Prod.fst).Nodup)
    (c : CellCoord) :
    cellLookup (sortResultsAlphabetically r) c = cellLookup r c := by
  simp only [cellLookup]
  rw [benchResultOf_sort r hnd1 hnd2 hnd3 c.exe c.suite c.bench]

theorem criteriaNamesOf_sort (r : ResultsByExeSuiteBenchmark)
    (hnd1 : (r.map Prod.fst).Nodup)
    (hnd2 : ∀ p ∈ r, (p.2.map Prod.fst).Nodup) (e s : String) :
    criteriaNamesOf (sortResultsAlphabetically r) e s =
    criteriaNamesOf r e s := by
  simp only [criteriaNamesOf]
  rw [suiteResultOf_sort r hnd1 hnd2 e s]
  cases suiteResultOf r e s <;> rfl

/-! ## The sorting pass sorts every level -/

theorem sortedByKeys_sortByKey {β : Type} (m : List (String × β)) :
    sortedByKeys (sortByKey m) := by
  unfold sortedByKeys sortByKey
  exact sorted_stableSort (fun a b => natLe a.1 b.1)
    (fun a b => natLe_total a.1 b.1)
    (fun a b c hab hbc => natLe_trans a.1 b.1 c.1 hab hbc) m

theorem sortedByKeys_map_sortExeEntry
    (m : List (String × List (String × ResultsByBenchmark)))
    (h : sortedByKeys m) : sortedByKeys (m.map sortExeEntry) := by
  unfold sortedByKeys at *
  exact (List.pairwise_map).mpr h

theorem sortedByKeys_map_sortSuiteEntry
    (m : List (String × ResultsByBenchmark))
    (h : sortedByKeys m) : sortedByKeys (m.map sortSuiteEntry) := by
  unfold sortedByKeys at *
  exact (List.pairwise_map).mpr h

theorem sortResults_sorted_levels (r : ResultsByExeSuiteBenchmark) :
    sortedByKeys (sortResultsAlphabetically r) ∧
    ∀ p ∈ sortResultsAlphabetically r,
      sortedByKeys p.2 ∧ ∀ q ∈ p.2, sortedByKeys q.2.benchmarks := by
  constructor
  · exact sortedByKeys_map_sortExeEntry _ (sortedByKeys_sortByKey r)
  · intro p hp
    simp only [sortResultsAlphabetically] at hp
    rcases List.mem_map.mp hp with ⟨ep, _, hep⟩
    rw [← hep]
    constructor
    · exact sortedByKeys_map_sortSuiteEntry _ (sortedByKeys_sortByKey ep.2)
    · intro q hq
      simp only [sortExeEntry] at hq
      rcases List.mem_map.mp hq with ⟨sp, _, hsp⟩
      rw [← hsp]
      exact sortedByKeys_sortByKey sp.2.benchmarks

/-! ## Claim C8: sorted levels, criteria in discovery order -/

/-- C8: in the hierarchy returned by `collateMeasurements`, the
execution-unit level, the suite level within each execution unit and the
benchmark level within each suite are each sorted by the numeric-aware
comparator (under which "bench10" sorts strictly after "bench2"), while
each suite's criteria record lists the criteria in the order in which
they were first discovered in the row stream, not in sorted order.
(Criterion names are assumed pipe-free, as the composite `` name|unit ``
key of the shared criteria map requires.) -/
theorem collate_sorted_levels_criteria_order (data : List MeasurementData)
    (hpipe : ∀ row ∈ data, noPipe row.criterion) :
    (sortedByKeys (collateMeasurements data) ∧
      ∀ p ∈ collateMeasurements data, sortedByKeys p.2 ∧
        ∀ q ∈ p.2, sortedByKeys q.2.benchmarks) ∧
    (natLe "bench2" "bench10" = true ∧ natLe "bench10" "bench2" = false) ∧
    (∀ e s, criteriaNamesOf (collateMeasurements data) e s =
      (if ∃ row ∈ data, row.exe = e ∧ row.suite = s
       then some (dedupFirst (suiteCritNames data e s)) else none)) := by
  have hinv := collateInv_fold data initialCollateState collateInv_initial
    hpipe
  obtain ⟨hcwf, hnd1, hlevel⟩ := hinv
  refine ⟨?_, ⟨by decide, by decide⟩, ?_⟩
  · exact sortResults_sorted_levels
      (data.foldl processRow initialCollateState).byExeSuiteBench
  · intro e s
    have heq : collateMeasurements data = sortResultsAlphabetically
        (data.foldl processRow initialCollateState).byExeSuiteBench := rfl
    rw [heq,
      criteriaNamesOf_sort _ hnd1 (fun p hp => (hlevel p hp).1) e s,
      criteriaNamesOf_fold data hpipe e s]

theorem collate_sorted_levels_criteria_order_witness :
    (sortedByKeys (collateMeasurements
      [⟨"A", "S", "B", "total", "ms", "cmd", none, none, none, none,
        none, 1, "c1", 1, 1, 1, 1, 1, 10⟩,
       ⟨"A", "S", "B", "mem", "b", "cmd", none, none, none, none,
        none, 1, "c1", 1, 1, 1, 1, 1, 77⟩]) ∧
     natLe "bench2" "bench10" = true) ∧
    criteriaNamesOf (collateMeasurements
      [⟨"A", "S", "B", "total", "ms", "cmd", none, none, none, none,
        none, 1, "c1", 1, 1, 1, 1, 1, 10⟩,
       ⟨"A", "S", "B", "mem", "b", "cmd", none, none, none, none,
        none, 1, "c1", 1, 1, 1, 1, 1, 77⟩]) "A" "S" =
    (if ∃ row ∈
        ([⟨"A", "S", "B", "total", "ms", "cmd", none, none, none, none,
           none, 1, "c1", 1, 1, 1, 1, 1, 10⟩,
          ⟨"A", "S", "B", "mem", "b", "cmd", none, none, none, none,
           none, 1, "c1", 1, 1, 1, 1, 1, 77⟩] : List MeasurementData),
        row.exe = "A" ∧ row.suite = "S"
     then some (dedupFirst (suiteCritNames
       [⟨"A", "S", "B", "total", "ms", "cmd", none, none, none, none,
         none, 1, "c1", 1, 1, 1, 1, 1, 10⟩,
        ⟨"A", "S", "B", "mem", "b", "cmd", none, none, none, none,
         none, 1, "c1", 1, 1, 1, 1, 1, 77⟩] "A" "S")) else none) := by
  have h := collate_sorted_levels_criteria_order
    [⟨"A", "S", "B", "total", "ms", "cmd", none, none, none, none,
      none, 1, "c1", 1, 1, 1, 1, 1, 10⟩,
     ⟨"A", "S", "B", "mem", "b", "cmd", none, none, none, none,
      none, 1, "c1", 1, 1, 1, 1, 1, 77⟩]
    (by decide)
  exact ⟨⟨h.1.1, h.2.1.1⟩, h.2.2 "A" "S"⟩

/-! ## Claim C6: permutation invariance of the leaf content -/

theorem bool_ext (a b : Bool) (h : a = true ↔ b = true) : a = b := by
  cases a <;> cases b <;> simp_all

/-- C6 (amended): for row lists with one-based invocations and
iterations, pipe-free criterion names, and pairwise-distinct full cell
coordinates (exe, suite, bench, envId, commitId, runId, trialId,
criterion name, invocation, iteration), `collateMeasurements` is
invariant under permutation of the rows: the two hierarchies have the
same execution units, the same suites, the same benchmarks, the same
series, and every cell of every series grid holds the same value. -/
theorem collate_permutation_invariant (l₁ l₂ : List MeasurementData)
    (hperm : l₁.Perm l₂) (hwf : ∀ row ∈ l₁, rowWF row)
    (hdist : (l₁.map coordOf).Nodup) :
    (∀ e, exeExists (collateMeasurements l₁) e =
      exeExists (collateMeasurements l₂) e) ∧
    (∀ e s, suiteExists (collateMeasurements l₁) e s =
      suiteExists (collateMeasurements l₂) e s) ∧
    (∀ e s b, benchExists (collateMeasurements l₁) e s b =
      benchExists (collateMeasurements l₂) e s b) ∧
    (∀ e s b k, seriesExists (collateMeasurements l₁) e s b k =
      seriesExists (collateMeasurements l₂) e s b k) ∧
    (∀ c, coordWF c → cellLookup (collateMeasurements l₁) c =
      cellLookup (collateMeasurements l₂) c) := by
  have hwf₂ : ∀ row ∈ l₂, rowWF row :=
    fun row hr => hwf row (hperm.mem_iff.mpr hr)
  have hpipe₁ : ∀ row ∈ l₁, noPipe row.criterion :=
    fun row hr => (hwf row hr).2.2
  have hpipe₂ : ∀ row ∈ l₂, noPipe row.criterion :=
    fun row hr => (hwf₂ row hr).2.2
  have hinv₁ := collateInv_fold l₁ initialCollateState collateInv_initial
    hpipe₁
  have hinv₂ := collateInv_fold l₂ initialCollateState collateInv_initial
    hpipe₂
  obtain ⟨hcwf₁, hnd₁, hlevel₁⟩ := hinv₁
  obtain ⟨hcwf₂, hnd₂, hlevel₂⟩ := hinv₂
  have heq₁ : collateMeasurements l₁ = sortResultsAlphabetically
      (l₁.foldl processRow initialCollateState).byExeSuiteBench := rfl
  have heq₂ : collateMeasurements l₂ = sortResultsAlphabetically
      (l₂.foldl processRow initialCollateState).byExeSuiteBench := rfl
  refine ⟨?_, ?_, ?_, ?_, ?_⟩
  · intro e
    rw [heq₁, heq₂, exeExists_sort _ hnd₁ e, exeExists_sort _ hnd₂ e]
    apply bool_ext
    rw [exeExists_fold l₁ e, exeExists_fold l₂ e]
    constructor
    · intro ⟨r, hr, hre⟩
      exact ⟨r, hperm.mem_iff.mp hr, hre⟩
    · intro ⟨r, hr, hre⟩
      exact ⟨r, hperm.mem_iff.mpr hr, hre⟩
  · intro e s
    rw [heq₁, heq₂,
      suiteExists_sort _ hnd₁ (fun p hp => (hlevel₁ p hp).1) e s,
      suiteExists_sort _ hnd₂ (fun p hp => (hlevel₂ p hp).1) e s]
    apply bool_ext
    rw [suiteExists_fold l₁ e s, suiteExists_fold l₂ e s]
    constructor
    · intro ⟨r, hr, hre⟩
      exact ⟨r, hperm.mem_iff.mp hr, hre⟩
    · intro ⟨r, hr, hre⟩
      exact ⟨r, hperm.mem_iff.mpr hr, hre⟩
  · intro e s b
    rw [heq₁, heq₂,
      benchExists_sort _ hnd₁ (fun p hp => (hlevel₁ p hp).1)
        (fun p hp q hq => ((hlevel₁ p hp).2 q hq).1) e s b,
      benchExists_sort _ hnd₂ (fun p hp => (hlevel₂ p hp).1)
        (fun p hp q hq => ((hlevel₂ p hp).2 q hq).1) e s b]
    apply bool_ext
    rw [benchExists_fold l₁ e s b, benchExists_fold l₂ e s b]
    constructor
    · intro ⟨r, hr, hre⟩
      exact ⟨r, hperm.mem_iff.mp hr, hre⟩
    · intro ⟨r, hr, hre⟩
      exact ⟨r, hperm.mem_iff.mpr hr, hre⟩
  · intro e s b k
    rw [heq₁, heq₂,
      seriesExists_sort _ hnd₁ (fun p hp => (hlevel₁ p hp).1)
        (fun p hp q hq => ((hlevel₁ p hp).2 q hq).1) e s b k,
      seriesExists_sort _ hnd₂ (fun p hp => (hlevel₂ p hp).1)
        (fun p hp q hq => ((hlevel₂ p hp).2 q hq).1) e s b k]
    apply bool_ext
    rw [seriesExists_fold l₁ hpipe₁ e s b k,
      seriesExists_fold l₂ hpipe₂ e s b k]
    constructor
    · intro ⟨r, hr, hre⟩
      exact ⟨r, hperm.mem_iff.mp hr, hre⟩
    · intro ⟨r, hr, hre⟩
      exact ⟨r, hperm.mem_iff.mpr hr, hre⟩
  · intro c hc
    rw [heq₁, heq₂,
      cellLookup_sort _ hnd₁ (fun p hp => (hlevel₁ p hp).1)
        (fun p hp q hq => ((hlevel₁ p hp).2 q hq).1) c,
      cellLookup_sort _ hnd₂ (fun p hp => (hlevel₂ p hp).1)
        (fun p hp q hq => ((hlevel₂ p hp).2 q hq).1) c,
      cellLookup_fold l₁ hwf c hc, cellLookup_fold l₂ hwf₂ c hc]
    exact lastMatch_perm l₁ l₂ hperm hdist c

theorem collate_permutation_invariant_witness :
    cellLookup (collateMeasurements
      [⟨"A", "S", "B", "total", "ms", "cmd", none, none, none, none,
        none, 1, "c1", 1, 1, 1, 1, 2, 20⟩,
       ⟨"A", "S", "B", "total", "ms", "cmd", none, none, none, none,
        none, 1, "c1", 1, 1, 1, 2, 1, 30⟩])
      (coordOf ⟨"A", "S", "B", "total", "ms", "cmd", none, none, none,
        none, none, 1, "c1", 1, 1, 1, 1, 2, 20⟩) =
    cellLookup (collateMeasurements
      [⟨"A", "S", "B", "total", "ms", "cmd", none, none, none, none,
        none, 1, "c1", 1, 1, 1, 2, 1, 30⟩,
       ⟨"A", "S", "B", "total", "ms", "cmd", none, none, none, none,
        none, 1, "c1", 1, 1, 1, 1, 2, 20⟩])
      (coordOf ⟨"A", "S", "B", "total", "ms", "cmd", none, none, none,
        none, none, 1, "c1", 1, 1, 1, 1, 2, 20⟩) ∧
    exeExists (collateMeasurements
      [⟨"A", "S", "B", "total", "ms", "cmd", none, none, none, none,
        none, 1, "c1", 1, 1, 1, 1, 2, 20⟩,
       ⟨"A", "S", "B", "total", "ms", "cmd", none, none, none, none,
        none, 1, "c1", 1, 1, 1, 2, 1, 30⟩]) "A" =
    exeExists (collateMeasurements
      [⟨"A", "S", "B", "total", "ms", "cmd", none, none, none, none,
        none, 1, "c1", 1, 1, 1, 2, 1, 30⟩,
       ⟨"A", "S", "B", "total", "ms", "cmd", none, none, none, none,
        none, 1, "c1", 1, 1, 1, 1, 2, 20⟩]) "A" := by
  have h := collate_permutation_invariant
    [⟨"A", "S", "B", "total", "ms", "cmd", none, none, none, none,
      none, 1, "c1", 1, 1, 1, 1, 2, 20⟩,
     ⟨"A", "S", "B", "total", "ms", "cmd", none, none, none, none,
      none, 1, "c1", 1, 1, 1, 2, 1, 30⟩]
    [⟨"A", "S", "B", "total", "ms", "cmd", none, none, none, none,
      none, 1, "c1", 1, 1, 1, 2, 1, 30⟩,
     ⟨"A", "S", "B", "total", "ms", "cmd", none, none, none, none,
      none, 1, "c1", 1, 1, 1, 1, 2, 20⟩]
    (by decide) (by decide) (by decide)
  exact ⟨h.2.2.2.2 _ (by decide), h.1 "A"⟩

/-- C6 as stated is false on the code: two rows that differ only in
their measured value have distinct full identity tuples (the spec's
identity tuple includes the value), yet they write the same grid cell,
so the collated leaf content depends on their order. -/
theorem collate_permutation_counterexample :
    specIdentityTuple
        ⟨"A", "S", "B", "total", "ms", "cmd", none, none, none, none,
         none, 1, "c1", 1, 1, 1, 1, 1, 10⟩ ≠
      specIdentityTuple
        ⟨"A", "S", "B", "total", "ms", "cmd", none, none, none, none,
         none, 1, "c1", 1, 1, 1, 1, 1, 20⟩ ∧
    ([⟨"A", "S", "B", "total", "ms", "cmd", none, none, none, none,
       none, 1, "c1", 1, 1, 1, 1, 1, 10⟩,
      ⟨"A", "S", "B", "total", "ms", "cmd", none, none, none, none,
       none, 1, "c1", 1, 1, 1, 1, 1, 20⟩] : List MeasurementData).Perm
      [⟨"A", "S", "B", "total", "ms", "cmd", none, none, none, none,
        none, 1, "c1", 1, 1, 1, 1, 1, 20⟩,
       ⟨"A", "S", "B", "total", "ms", "cmd", none, none, none, none,
        none, 1, "c1", 1, 1, 1, 1, 1, 10⟩] ∧
    cellLookup (collateMeasurements
      [⟨"A", "S", "B", "total", "ms", "cmd", none, none, none, none,
        none, 1, "c1", 1, 1, 1, 1, 1, 10⟩,
       ⟨"A", "S", "B", "total", "ms", "cmd", none, none, none, none,
        none, 1, "c1", 1, 1, 1, 1, 1, 20⟩])
      (coordOf ⟨"A", "S", "B", "total", "ms", "cmd", none, none, none,
        none, none, 1, "c1", 1, 1, 1, 1, 1, 10⟩) = some 20 ∧
    cellLookup (collateMeasurements
      [⟨"A", "S", "B", "total", "ms", "cmd", none, none, none, none,
        none, 1, "c1", 1, 1, 1, 1, 1, 20⟩,
       ⟨"A", "S", "B", "total", "ms", "cmd", none, none, none, none,
        none, 1, "c1", 1, 1, 1, 1, 1, 10⟩])
      (coordOf ⟨"A", "S", "B", "total", "ms", "cmd", none, none, none,
        none, none, 1, "c1", 1, 1, 1, 1, 1, 10⟩) = some 10 := by
  refine ⟨by decide, by decide, by decide, by decide⟩

end ReBenchDB
